import Mathlib

/-!
Shallow embedding of the coastline geometry pipeline of this repository
(coastline_tools/coastline_pipeline.py and coastline_tools/stitch_coastline.py),
together with proofs about it.

Modelling conventions:
* Coordinates are rational numbers (exact arithmetic standing for the
  floating-point numbers of the source).
* The external pyproj projection service is a parameter: a pure function
  fwd (WGS84 to metric) and its inverse inv, following section 4.1 of the
  design (deterministic, otherwise arbitrary).
* math.hypot based edge lengths (used only by the splitter) are represented
  by an abstract edge-length function edist standing for the euclidean
  distance of the projected endpoints, since exact square roots are not
  rational.  Everything else in the source compares squared distances only
  and is embedded exactly.
-/

namespace Coastline

set_option maxRecDepth 40000

abbrev LonLat : Type := ℚ × ℚ

abbrev Line : Type := List LonLat

/-- Squared euclidean distance, written dx*dx + dy*dy as in the source. -/
def dist2 (a b : LonLat) : ℚ :=
  (a.1 - b.1) * (a.1 - b.1) + (a.2 - b.2) * (a.2 - b.2)

/-- Python max over a nonempty list of rationals (0 on [], never used there). -/
def maxQ : List ℚ → ℚ
  | [] => 0
  | x :: xs => xs.foldl max x

/-- Python min over a nonempty list of rationals (0 on [], never used there). -/
def minQ : List ℚ → ℚ
  | [] => 0
  | x :: xs => xs.foldl min x

/-- line_bbox from coastline_pipeline.py: (lon_min, lat_min, lon_max, lat_max). -/
def line_bbox (line : Line) : ℚ × ℚ × ℚ × ℚ :=
  (minQ (line.map Prod.fst), minQ (line.map Prod.snd),
   maxQ (line.map Prod.fst), maxQ (line.map Prod.snd))

/-- clip_lines_to_bbox from coastline_pipeline.py: keep lines whose bounding
box intersects the query box; empty lines are skipped. -/
def clip_lines_to_bbox : List Line → ℚ → ℚ → ℚ → ℚ → List Line
  | [], _, _, _, _ => []
  | line :: rest, lon_min, lat_min, lon_max, lat_max =>
    let xs := line.map Prod.fst
    let ys := line.map Prod.snd
    if xs = [] ∨ ys = [] then
      clip_lines_to_bbox rest lon_min lat_min lon_max lat_max
    else if maxQ xs < lon_min ∨ lon_max < minQ xs ∨ maxQ ys < lat_min ∨ lat_max < minQ ys then
      clip_lines_to_bbox rest lon_min lat_min lon_max lat_max
    else
      line :: clip_lines_to_bbox rest lon_min lat_min lon_max lat_max

/-- The predicate a line must satisfy to be kept by clip_lines_to_bbox. -/
def keepLine (lon_min lat_min lon_max lat_max : ℚ) (line : Line) : Bool :=
  decide (¬ (line = [] ∨ maxQ (line.map Prod.fst) < lon_min ∨
      lon_max < minQ (line.map Prod.fst) ∨ maxQ (line.map Prod.snd) < lat_min ∨
      lat_max < minQ (line.map Prod.snd)))

/-- The interior-point thinning loop shared by simplify_line and
simplify_line_meters: keep a point exactly when its squared distance in
projected space from the last kept point reaches the squared tolerance. -/
def thinGo (fwd : LonLat → LonLat) (tol2 : ℚ) (last : LonLat) : List LonLat → List LonLat
  | [] => []
  | p :: ps =>
    if tol2 ≤ dist2 (fwd p) last then p :: thinGo fwd tol2 (fwd p) ps
    else thinGo fwd tol2 last ps

/-- simplify_line_meters from coastline_pipeline.py; fwd is the projection.
The output is out = [line[0]] ++ kept interior points ++ [line[-1]]. -/
def simplify_line_meters (fwd : LonLat → LonLat) (line : Line) (tolerance_m : ℚ) : Line :=
  if line.length ≤ 2 then line
  else
    line.headD (0, 0) ::
      (thinGo fwd (tolerance_m * tolerance_m) (fwd (line.headD (0, 0))) (line.drop 1).dropLast ++
        [line.getLastD (0, 0)])

/-- simplify_line from coastline_pipeline.py (degree space: no projection). -/
def simplify_line (line : Line) (tolerance_deg : ℚ) : Line :=
  if line.length ≤ 2 then line
  else
    line.headD (0, 0) ::
      (thinGo (fun p => p) (tolerance_deg * tolerance_deg) (line.headD (0, 0))
          (line.drop 1).dropLast ++
        [line.getLastD (0, 0)])

/-- One step of the spec-side simplifier walk: the accumulator is the list of
kept interior points together with the projection of the last kept point. -/
def specStep (fwd : LonLat → LonLat) (tol2 : ℚ) (acc : List LonLat × LonLat) (p : LonLat) :
    List LonLat × LonLat :=
  if tol2 ≤ dist2 (fwd p) acc.2 then (acc.1 ++ [p], fwd p) else acc

/-- Modelled from the spec, section 4.3: keep first and last point; walk the
interior points in order keeping a point exactly when its squared metric
distance from the last kept point is at least the squared tolerance, updating
last kept to it.  Used to compare the source algorithm with the spec text. -/
def simplifySpecModel (fwd : LonLat → LonLat) (line : Line) (tolerance_m : ℚ) : Line :=
  if line.length ≤ 2 then line
  else
    let first := line.headD (0, 0)
    let kept :=
      ((line.drop 1).dropLast.foldl (specStep fwd (tolerance_m * tolerance_m)) ([], fwd first)).1
    (first :: kept) ++ [line.getLastD (0, 0)]

/-- Metric length of a polyline chunk: the sum of the abstract edge lengths of
its consecutive vertex pairs (the rational stand-in for line_length_meters). -/
def chunkLen (edist : LonLat → LonLat → ℚ) : List LonLat → ℚ
  | [] => 0
  | [_] => 0
  | p :: q :: rest => edist p q + chunkLen edist (q :: rest)

/-- The accumulation loop of split_line_max_length_meters: cur is the open
chunk, accum its accumulated length, prev the previous vertex; the source
closes the chunk when len(cur) > 1 and accum plus the edge exceeds max_len. -/
def splitGo (edist : LonLat → LonLat → ℚ) (max_len : ℚ)
    (cur : List LonLat) (accum : ℚ) (prev : LonLat) : List LonLat → List (List LonLat)
  | [] => if 2 ≤ cur.length then [cur] else []
  | p :: rest =>
    if 2 ≤ cur.length ∧ max_len < accum + edist prev p then
      cur :: splitGo edist max_len [prev, p] (edist prev p) p rest
    else
      splitGo edist max_len (cur ++ [p]) (accum + edist prev p) p rest

/-- split_line_max_length_meters from coastline_pipeline.py.  edist models
math.hypot applied to the projected coordinate differences. -/
def split_line_max_length_meters (edist : LonLat → LonLat → ℚ) (line : Line)
    (max_len_m : ℚ) : List Line :=
  if line.length < 2 then []
  else splitGo edist max_len_m [line.headD (0, 0)] 0 (line.headD (0, 0)) (line.drop 1)

/-- Every consecutive vertex pair of the line has edge length at most m. -/
def edgesLE (edist : LonLat → LonLat → ℚ) (m : ℚ) : List LonLat → Prop
  | [] => True
  | [_] => True
  | p :: q :: rest => edist p q ≤ m ∧ edgesLE edist m (q :: rest)

instance (edist : LonLat → LonLat → ℚ) (m : ℚ) :
    ∀ l : List LonLat, Decidable (edgesLE edist m l)
  | [] => isTrue trivial
  | [_] => isTrue trivial
  | p :: q :: rest =>
    have : Decidable (edgesLE edist m (q :: rest)) :=
      instDecidableEdgesLE edist m (q :: rest)
    instDecidableAnd

/-- One output record of lines_to_feature_collection_with_bboxes (the constant
collection wrapper fields are elided; one Feature per surviving line). -/
structure Feature where
  source : String
  segment_id : ℕ
  bbox : ℚ × ℚ × ℚ × ℚ
  coordinates : Line
deriving DecidableEq

/-- The enumeration loop of lines_to_feature_collection_with_bboxes. -/
def emitGo (source_name : String) : ℕ → List Line → List Feature
  | _, [] => []
  | i, line :: rest =>
    if line.length < 2 then emitGo source_name (i + 1) rest
    else
      { source := source_name, segment_id := i, bbox := line_bbox line, coordinates := line } ::
        emitGo source_name (i + 1) rest

/-- lines_to_feature_collection_with_bboxes from coastline_pipeline.py. -/
def lines_to_feature_collection_with_bboxes (lines : List Line) (source_name : String) :
    List Feature :=
  emitGo source_name 0 lines

/-! ## EndpointClusterer (stitch_coastline.py) -/

/-- Python round: nearest integer, ties to even (int(round(x)) in the source). -/
def pyRound (q : ℚ) : ℤ :=
  let f := ⌊q⌋
  let r := q - (f : ℚ)
  if r < 1/2 then f
  else if 1/2 < r then f + 1
  else if 2 ∣ f then f else f + 1

/-- State of EndpointClusterer: centers holds (x, y, count) per cluster id;
buckets is the spatial hash (a total function, like defaultdict(list));
center_bucket is the reverse index from cluster id to its current bucket. -/
structure CState where
  tol : ℚ
  cell : ℚ
  centers : List (ℚ × ℚ × ℚ)
  buckets : ℤ × ℤ → List ℕ
  center_bucket : ℕ → ℤ × ℤ

/-- EndpointClusterer.__init__: cell = tol = tolerance_m, empty indices. -/
def initC (tolerance_m : ℚ) : CState :=
  { tol := tolerance_m, cell := tolerance_m, centers := [],
    buckets := fun _ => [], center_bucket := fun _ => (0, 0) }

/-- EndpointClusterer._bucket_id. -/
def bucketId (st : CState) (x y : ℚ) : ℤ × ℤ :=
  (pyRound (x / st.cell), pyRound (y / st.cell))

/-- The 3x3 neighborhood scan order of assign: ox outer, oy inner. -/
def neighborOffsets : List (ℤ × ℤ) :=
  [(-1, -1), (-1, 0), (-1, 1), (0, -1), (0, 0), (0, 1), (1, -1), (1, 0), (1, 1)]

/-- One candidate test of the scan in assign: take cid as the new best when
its squared distance is within tolerance and beats the current best. -/
def scanStep (st : CState) (x y : ℚ) (best : Option (ℕ × ℚ)) (cid : ℕ) : Option (ℕ × ℚ) :=
  let c := st.centers.getD cid (0, 0, 0)
  let d2 := (x - c.1) * (x - c.1) + (y - c.2.1) * (y - c.2.1)
  match best with
  | none => if d2 ≤ st.tol * st.tol then some (cid, d2) else none
  | some b0 => if d2 ≤ st.tol * st.tol ∧ d2 < b0.2 then some (cid, d2) else best

/-- The candidate scan of assign: best cluster id (with its squared distance)
within tolerance over the 3x3 bucket neighborhood of b. -/
def findBest (st : CState) (x y : ℚ) (b : ℤ × ℤ) : Option (ℕ × ℚ) :=
  neighborOffsets.foldl
    (fun best o => (st.buckets (b.1 + o.1, b.2 + o.2)).foldl (scanStep st x y) best)
    none

/-- EndpointClusterer.assign: returns the updated state and the cluster id. -/
def assign (fwd : LonLat → LonLat) (st : CState) (p : LonLat) : CState × ℕ :=
  let q := fwd p
  let b := bucketId st q.1 q.2
  match findBest st q.1 q.2 b with
  | none =>
    let cid := st.centers.length
    ({ st with
        centers := st.centers ++ [(q.1, q.2, 1)],
        buckets := fun k => if k = b then st.buckets k ++ [cid] else st.buckets k,
        center_bucket := Function.update st.center_bucket cid b }, cid)
  | some best =>
    let c := st.centers.getD best.1 (0, 0, 0)
    let ncnt := c.2.2 + 1
    let nx := (c.1 * c.2.2 + q.1) / ncnt
    let ny := (c.2.1 * c.2.2 + q.2) / ncnt
    let nb := bucketId st nx ny
    let ob := st.center_bucket best.1
    if nb ≠ ob then
      ({ st with
          centers := st.centers.set best.1 (nx, ny, ncnt),
          buckets := fun k =>
            if k = ob then (st.buckets k).erase best.1
            else if k = nb then st.buckets k ++ [best.1]
            else st.buckets k,
          center_bucket := Function.update st.center_bucket best.1 nb }, best.1)
    else
      ({ st with centers := st.centers.set best.1 (nx, ny, ncnt) }, best.1)

/-- EndpointClusterer.center: inverse-project the stored centroid. -/
def center (inv : LonLat → LonLat) (st : CState) (cid : ℕ) : LonLat :=
  inv ((st.centers.getD cid (0, 0, 0)).1, (st.centers.getD cid (0, 0, 0)).2.1)

/-- Fold assign over a list of raw points. -/
def assignAll (fwd : LonLat → LonLat) (st : CState) : List LonLat → CState
  | [] => st
  | p :: ps => assignAll fwd (assign fwd st p).1 ps

/-- The trace of a sequence of assign calls: for each call, the projected
point together with the cluster id it was absorbed into (or created). -/
def assignTrace (fwd : LonLat → LonLat) (st : CState) : List LonLat → List (LonLat × ℕ)
  | [] => []
  | p :: ps =>
    let r := assign fwd st p
    (fwd p, r.2) :: assignTrace fwd r.1 ps

/-- The projected points that were absorbed into cluster cid, per the trace. -/
def clusterMembers (tr : List (LonLat × ℕ)) (cid : ℕ) : List LonLat :=
  (tr.filter (fun e => e.2 == cid)).map Prod.fst

def sumX (l : List LonLat) : ℚ := (l.map Prod.fst).sum

def sumY (l : List LonLat) : ℚ := (l.map Prod.snd).sum

/-! ## ChainStitcher (stitch_coastline.py) -/

/-- One entry of the segs list built by stitch_lines: snapped coordinates plus
start and end cluster ids (source field name end; end is reserved in Lean). -/
structure Seg where
  coords : Line
  start : ℕ
  endc : ℕ
deriving DecidableEq

def dummySeg : Seg := ⟨[], 0, 0⟩

/-- The segment-building loop of stitch_lines (lines 96-107 of the source):
assign both endpoints, then replace the first and last coordinate by the
current cluster centers. -/
def buildSegs (fwd inv : LonLat → LonLat) (st : CState) : List Line → CState × List Seg
  | [] => (st, [])
  | line :: rest =>
    if line.length < 2 then buildSegs fwd inv st rest
    else
      let r1 := assign fwd st (line.headD (0, 0))
      let r2 := assign fwd r1.1 (line.getLastD (0, 0))
      let sxy := center inv r2.1 r1.2
      let exy := center inv r2.1 r2.2
      let coords := (line.set 0 sxy).set (line.length - 1) exy
      let rrest := buildSegs fwd inv r2.1 rest
      (rrest.1, ⟨coords, r1.2, r2.2⟩ :: rrest.2)

/-- The trace of the assign calls performed by buildSegs, in call order. -/
def segTrace (fwd : LonLat → LonLat) (st : CState) : List Line → List (LonLat × ℕ)
  | [] => []
  | line :: rest =>
    if line.length < 2 then segTrace fwd st rest
    else
      let r1 := assign fwd st (line.headD (0, 0))
      let r2 := assign fwd r1.1 (line.getLastD (0, 0))
      (fwd (line.headD (0, 0)), r1.2) :: (fwd (line.getLastD (0, 0)), r2.2) ::
        segTrace fwd r2.1 rest

/-- Mutable stitching bookkeeping: the two cluster-id indexed indices (sets
modelled as insertion-ordered duplicate-free lists) and the used flags. -/
structure StState where
  starts : ℕ → List ℕ
  ends : ℕ → List ℕ
  used : ℕ → Bool

/-- The index construction loop: for i, seg in enumerate(segs), add i under
its start and end cluster (ascending insertion order). -/
def buildIdx (key : Seg → ℕ) (segs : List Seg) (c : ℕ) : List ℕ :=
  (List.range segs.length).filter (fun i => key (segs.getD i dummySeg) == c)

def initStitch (segs : List Seg) : StState :=
  { starts := buildIdx Seg.start segs
    ends := buildIdx Seg.endc segs
    used := fun _ => false }

/-- pick_next from stitch_lines: first unused start-match, else first unused
end-match; the Bool is true when the segment is used forward (start matches). -/
def pick_next (st : StState) (cluster_id : ℕ) : Option (ℕ × Bool) :=
  match (st.starts cluster_id).find? (fun i => ! st.used i) with
  | some i => some (i, true)
  | none =>
    match (st.ends cluster_id).find? (fun i => ! st.used i) with
    | some i => some (i, false)
    | none => none

/-- remove_idx from stitch_lines: discard i from both indices, mark it used. -/
def remove_idx (segs : List Seg) (st : StState) (i : ℕ) : StState :=
  let seg := segs.getD i dummySeg
  { starts := fun c => if c = seg.start then (st.starts c).erase i else st.starts c
    ends := fun c => if c = seg.endc then (st.ends c).erase i else st.ends c
    used := Function.update st.used i true }

/-- Result of one extension loop: final state, final end (or start) cluster,
the chain, the consumed segment indices in order, and whether the loop ended
by its own exit condition (done = false only when the fuel ran out). -/
structure ExtRes where
  st : StState
  cid : ℕ
  chain : Line
  consumed : List ℕ
  done : Bool

/-- The forward extension loop of stitch_lines (lines 141-156). -/
def extendF (segs : List Seg) (i : ℕ) : ℕ → StState → ℕ → Line → ExtRes
  | 0, st, end_c, chain => ⟨st, end_c, chain, [], false⟩
  | fuel + 1, st, end_c, chain =>
    match pick_next st end_c with
    | none => ⟨st, end_c, chain, [], true⟩
    | some (j, fdir) =>
      if j = i then ⟨st, end_c, chain, [], true⟩
      else
        let jseg := segs.getD j dummySeg
        let next :=
          if fdir then (chain ++ jseg.coords.drop 1, jseg.endc)
          else (chain ++ jseg.coords.reverse.drop 1, jseg.start)
        let r := extendF segs i fuel (remove_idx segs st j) next.2 next.1
        ⟨r.st, r.cid, r.chain, j :: r.consumed, r.done⟩

/-- The backward extension loop of stitch_lines (lines 159-176). -/
def extendB (segs : List Seg) (i : ℕ) : ℕ → StState → ℕ → Line → ExtRes
  | 0, st, start_c, chain => ⟨st, start_c, chain, [], false⟩
  | fuel + 1, st, start_c, chain =>
    match pick_next st start_c with
    | none => ⟨st, start_c, chain, [], true⟩
    | some (j, fdir) =>
      if j = i then ⟨st, start_c, chain, [], true⟩
      else
        let jseg := segs.getD j dummySeg
        let next :=
          if fdir then (jseg.coords.reverse.dropLast ++ chain, jseg.endc)
          else (jseg.coords.dropLast ++ chain, jseg.start)
        let r := extendB segs i fuel (remove_idx segs st j) next.2 next.1
        ⟨r.st, r.cid, r.chain, j :: r.consumed, r.done⟩

/-- The outer loop of stitch_lines over segment indices: each produced chain
is paired with the list of segment indices it consumed (head index first). -/
def stitchGo (segs : List Seg) (st : StState) : List ℕ → List (Line × List ℕ)
  | [] => []
  | i :: rest =>
    if st.used i then stitchGo segs st rest
    else
      let seg := segs.getD i dummySeg
      let st1 := remove_idx segs st i
      let rf := extendF segs i segs.length st1 seg.endc seg.coords
      let rb := extendB segs i segs.length rf.st seg.start rf.chain
      (rb.chain, i :: (rf.consumed ++ rb.consumed)) :: stitchGo segs rb.st rest

/-- The segs list built by stitch_lines for the given input. -/
def stitchSegs (fwd inv : LonLat → LonLat) (lines : List Line) (snap_tol_m : ℚ) : List Seg :=
  (buildSegs fwd inv (initC snap_tol_m) lines).2

/-- The chains emitted by stitch_lines, each with its consumed indices. -/
def stitchChains (fwd inv : LonLat → LonLat) (lines : List Line) (snap_tol_m : ℚ) :
    List (Line × List ℕ) :=
  let segs := stitchSegs fwd inv lines snap_tol_m
  stitchGo segs (initStitch segs) (List.range segs.length)

/-- stitch_lines from stitch_coastline.py. -/
def stitch_lines (fwd inv : LonLat → LonLat) (lines : List Line) (snap_tol_m : ℚ) : List Line :=
  if lines = [] then []
  else (stitchChains fwd inv lines snap_tol_m).map Prod.fst

/-- The unused segment indices of a stitching state. -/
def unusedIdx (segs : List Seg) (st : StState) : List ℕ :=
  (List.range segs.length).filter (fun i => ! st.used i)

/-- Well-formedness of the index structures: they only hold valid indices. -/
def WFst (segs : List Seg) (st : StState) : Prop :=
  (∀ c i, i ∈ st.starts c → i < segs.length) ∧
  (∀ c i, i ∈ st.ends c → i < segs.length)

/-! ## C6: BBoxFilter keeps exactly the lines whose bbox meets the query box -/

/-- C6: clip_lines_to_bbox is exactly a filter: a line is kept, unchanged and
in order, if and only if it is nonempty and not rejected by one of the four
bounding-box comparisons (max lon below lon_min, min lon above lon_max,
max lat below lat_min, or min lat above lat_max). -/
theorem clip_keeps_iff_bbox_intersects :
    ∀ (lines : List Line) (lon_min lat_min lon_max lat_max : ℚ),
      clip_lines_to_bbox lines lon_min lat_min lon_max lat_max =
        lines.filter (keepLine lon_min lat_min lon_max lat_max) := by
  intro lines a b c d
  induction lines with
  | nil => rfl
  | cons line rest ih =>
    rw [clip_lines_to_bbox, List.filter_cons]
    by_cases hemp : line = []
    · subst hemp
      simp [keepLine, ih]
    · have hx : ¬ (line.map Prod.fst = [] ∨ line.map Prod.snd = []) := by
        simp [List.map_eq_nil_iff, hemp]
      by_cases hout : maxQ (line.map Prod.fst) < a ∨ c < minQ (line.map Prod.fst) ∨
          maxQ (line.map Prod.snd) < b ∨ d < minQ (line.map Prod.snd)
      · have hk : keepLine a b c d line = false := by
          simp only [keepLine, decide_eq_false_iff_not, not_not]
          exact Or.inr hout
        simp only [if_neg hx, if_pos hout, hk, Bool.false_eq_true, if_false, ih]
      · have hk : keepLine a b c d line = true := by
          simp only [keepLine, decide_eq_true_eq]
          exact fun h => h.elim hemp hout
        simp only [if_neg hx, if_neg hout, hk, if_true, ih]

/-! ## C7: every emitted feature carries a bbox from its own coordinates -/

lemma emitGo_bbox_aux (source_name : String) :
    ∀ (lines : List Line) (i : ℕ) (f : Feature), f ∈ emitGo source_name i lines →
      f.bbox = line_bbox f.coordinates := by
  intro lines
  induction lines with
  | nil => intro i f h; simp [emitGo] at h
  | cons line rest ih =>
    intro i f h
    rw [emitGo] at h
    by_cases hs : line.length < 2
    · rw [if_pos hs] at h
      exact ih _ _ h
    · rw [if_neg hs, List.mem_cons] at h
      rcases h with h | h
      · subst h; rfl
      · exact ih _ _ h

/-- C7: for every feature emitted by lines_to_feature_collection_with_bboxes,
the stored bbox equals (min of longitudes, min of latitudes, max of
longitudes, max of latitudes) computed from the coordinates of that feature. -/
theorem feature_bbox_roundtrip (lines : List Line) (source_name : String) (f : Feature)
    (hf : f ∈ lines_to_feature_collection_with_bboxes lines source_name) :
    f.bbox = (minQ (f.coordinates.map Prod.fst), minQ (f.coordinates.map Prod.snd),
      maxQ (f.coordinates.map Prod.fst), maxQ (f.coordinates.map Prod.snd)) :=
  emitGo_bbox_aux source_name lines 0 f hf

/-- Witness for C7 on a concrete input and feature. -/
theorem feature_bbox_roundtrip_witness :
    (⟨"shore", 0, (0, -1, 2, 1), [(0, 1), (2, -1)]⟩ : Feature) ∈
      lines_to_feature_collection_with_bboxes [[(0, 1), (2, -1)]] "shore" ∧
    (⟨"shore", 0, (0, -1, 2, 1), [(0, 1), (2, -1)]⟩ : Feature).bbox =
      (minQ ((⟨"shore", 0, (0, -1, 2, 1), [(0, 1), (2, -1)]⟩ : Feature).coordinates.map Prod.fst),
        minQ ((⟨"shore", 0, (0, -1, 2, 1), [(0, 1), (2, -1)]⟩ : Feature).coordinates.map Prod.snd),
        maxQ ((⟨"shore", 0, (0, -1, 2, 1), [(0, 1), (2, -1)]⟩ : Feature).coordinates.map Prod.fst),
        maxQ ((⟨"shore", 0, (0, -1, 2, 1), [(0, 1), (2, -1)]⟩ : Feature).coordinates.map
          Prod.snd)) :=
  ⟨by with_unfolding_all decide,
    feature_bbox_roundtrip [[(0, 1), (2, -1)]] "shore" _ (by with_unfolding_all decide)⟩

/-! ## C10 and C5: the simplifier -/

lemma thinGo_sublist (fwd : LonLat → LonLat) (tol2 : ℚ) :
    ∀ (ps : List LonLat) (last : LonLat), (thinGo fwd tol2 last ps).Sublist ps := by
  intro ps
  induction ps with
  | nil => intro last; simp [thinGo]
  | cons p ps ih =>
    intro last
    rw [thinGo]
    by_cases h : tol2 ≤ dist2 (fwd p) last
    · rw [if_pos h]; exact (ih (fwd p)).cons₂ p
    · rw [if_neg h]; exact (ih last).cons p

/-- The common output shape of both simplifiers on a line p0 :: rest with more
than two points: properties of p0 :: (kept ++ [rest.getLastD p0]). -/
lemma simplifier_shape (p0 : LonLat) (rest kept : List LonLat) (hr : rest ≠ [])
    (hk : kept.Sublist rest.dropLast) :
    (p0 :: (kept ++ [rest.getLastD p0])).Sublist (p0 :: rest) ∧
    (p0 :: (kept ++ [rest.getLastD p0])).head? = (p0 :: rest).head? ∧
    (p0 :: (kept ++ [rest.getLastD p0])).getLast? = (p0 :: rest).getLast? ∧
    2 ≤ (p0 :: (kept ++ [rest.getLastD p0])).length := by
  have hD : rest.getLastD p0 = rest.getLast hr := by
    rw [List.getLastD_eq_getLast?, List.getLast?_eq_getLast rest hr]
    rfl
  have hrest : rest.dropLast ++ [rest.getLastD p0] = rest := by
    rw [hD]
    exact List.dropLast_append_getLast hr
  refine ⟨?_, ?_, ?_, ?_⟩
  · have h3 : (kept ++ [rest.getLastD p0]).Sublist (rest.dropLast ++ [rest.getLastD p0]) :=
      hk.append (List.Sublist.refl _)
    rw [hrest] at h3
    exact h3.cons₂ p0
  · rfl
  · have h1 : (p0 :: (kept ++ [rest.getLastD p0])).getLast? = some (rest.getLastD p0) := by
      have h0 : p0 :: (kept ++ [rest.getLastD p0]) = (p0 :: kept) ++ [rest.getLastD p0] := by
        simp
      rw [h0, List.getLast?_concat]
    have h2 : (p0 :: rest).getLast? = some (rest.getLastD p0) := by
      have h0 : (p0 :: rest).getLast? = rest.getLast? := by
        cases rest with
        | nil => exact absurd rfl hr
        | cons b t => exact List.getLast?_cons_cons
      rw [h0, hD, List.getLast?_eq_getLast rest hr]
    rw [h1, h2]
  · simp

/-- C10: for every line with at least 2 points and every tolerance, both
simplifiers return an order-preserving subsequence of the input containing the
first and last points of the input, with at least 2 points. -/
theorem simplifier_subsequence (fwd : LonLat → LonLat) (line : Line) (tol : ℚ)
    (h2 : 2 ≤ line.length) :
    ((simplify_line_meters fwd line tol).Sublist line ∧
      (simplify_line_meters fwd line tol).head? = line.head? ∧
      (simplify_line_meters fwd line tol).getLast? = line.getLast? ∧
      2 ≤ (simplify_line_meters fwd line tol).length) ∧
    ((simplify_line line tol).Sublist line ∧
      (simplify_line line tol).head? = line.head? ∧
      (simplify_line line tol).getLast? = line.getLast? ∧
      2 ≤ (simplify_line line tol).length) := by
  constructor
  · rw [simplify_line_meters]
    by_cases hle : line.length ≤ 2
    · rw [if_pos hle]
      exact ⟨List.Sublist.refl _, rfl, rfl, h2⟩
    · rw [if_neg hle]
      cases line with
      | nil => simp at hle
      | cons p0 rest =>
        have hr : rest ≠ [] := by
          intro h; rw [h] at hle; simp at hle
        simp only [List.headD_cons, List.drop_succ_cons, List.drop_zero, List.getLastD_cons]
        exact simplifier_shape p0 rest _ hr (thinGo_sublist fwd _ rest.dropLast (fwd p0))
  · rw [simplify_line]
    by_cases hle : line.length ≤ 2
    · rw [if_pos hle]
      exact ⟨List.Sublist.refl _, rfl, rfl, h2⟩
    · rw [if_neg hle]
      cases line with
      | nil => simp at hle
      | cons p0 rest =>
        have hr : rest ≠ [] := by
          intro h; rw [h] at hle; simp at hle
        simp only [List.headD_cons, List.drop_succ_cons, List.drop_zero, List.getLastD_cons]
        exact simplifier_shape p0 rest _ hr (thinGo_sublist _ _ rest.dropLast p0)

/-- Witness for C10 at a concrete input. -/
theorem simplifier_subsequence_witness :
    2 ≤ ([((0 : ℚ), (0 : ℚ)), (1, 0), (5, 0)] : Line).length ∧
      (simplify_line_meters (fun p => p) [(0, 0), (1, 0), (5, 0)] 2).Sublist
        [(0, 0), (1, 0), (5, 0)] :=
  ⟨by decide,
    (simplifier_subsequence (fun p => p) [(0, 0), (1, 0), (5, 0)] 2 (by decide)).1.1⟩

lemma specStep_foldl (fwd : LonLat → LonLat) (tol2 : ℚ) :
    ∀ (ps : List LonLat) (acc : List LonLat) (last : LonLat),
      (ps.foldl (specStep fwd tol2) (acc, last)).1 = acc ++ thinGo fwd tol2 last ps := by
  intro ps
  induction ps with
  | nil => intro acc last; simp [thinGo]
  | cons p ps ih =>
    intro acc last
    rw [List.foldl_cons, thinGo, specStep]
    by_cases h : tol2 ≤ dist2 (fwd p) last
    · rw [if_pos h, if_pos h, ih]
      simp
    · rw [if_neg h, if_neg h, ih]

/-- C5: the simplifier keeps the first point, keeps an interior point exactly
when its squared metric distance from the last kept point reaches the squared
tolerance (updating last kept), and always keeps the last point — that is, it
agrees with the spec-side walk simplifySpecModel; in particular, 5 colinear
points one meter apart with tolerance 2 leave the points at x = 0, 2, 4. -/
theorem simplifier_matches_spec :
    (∀ (fwd : LonLat → LonLat) (line : Line) (tol : ℚ), 2 < line.length →
      simplify_line_meters fwd line tol = simplifySpecModel fwd line tol) ∧
    simplify_line_meters (fun p => p) [(0, 0), (1, 0), (2, 0), (3, 0), (4, 0)] 2 =
      [(0, 0), (2, 0), (4, 0)] := by
  constructor
  · intro fwd line tol h2
    have hle : ¬ line.length ≤ 2 := by omega
    rw [simplify_line_meters, simplifySpecModel, if_neg hle, if_neg hle]
    simp [specStep_foldl]
  · with_unfolding_all decide

/-- Witness for C5 (the universally quantified half) at a concrete input. -/
theorem simplifier_matches_spec_witness :
    2 < ([((0 : ℚ), (0 : ℚ)), (1, 0), (5, 0)] : Line).length ∧
      simplify_line_meters (fun p => p) [(0, 0), (1, 0), (5, 0)] 2 =
        simplifySpecModel (fun p => p) [(0, 0), (1, 0), (5, 0)] 2 :=
  ⟨by decide, simplifier_matches_spec.1 (fun p => p) [(0, 0), (1, 0), (5, 0)] 2 (by decide)⟩

/-! ## C4: the splitter -/

@[simp] lemma chunkLen_nil (edist : LonLat → LonLat → ℚ) : chunkLen edist [] = 0 := rfl

@[simp] lemma chunkLen_single (edist : LonLat → LonLat → ℚ) (p : LonLat) :
    chunkLen edist [p] = 0 := rfl

@[simp] lemma chunkLen_cons_cons (edist : LonLat → LonLat → ℚ) (p q : LonLat)
    (l : List LonLat) : chunkLen edist (p :: q :: l) = edist p q + chunkLen edist (q :: l) := rfl

lemma chunkLen_concat (edist : LonLat → LonLat → ℚ) :
    ∀ (cur : List LonLat) (prev p : LonLat), cur.getLast? = some prev →
      chunkLen edist (cur ++ [p]) = chunkLen edist cur + edist prev p := by
  intro cur
  induction cur with
  | nil => intro prev p h; simp at h
  | cons a t ih =>
    intro prev p h
    cases t with
    | nil =>
      simp at h
      subst h
      simp
    | cons b t2 =>
      have h2 : (b :: t2).getLast? = some prev := by
        rw [← List.getLast?_cons_cons (a := a)]
        exact h
      have := ih prev p h2
      simp only [List.cons_append, chunkLen_cons_cons] at this ⊢
      rw [this]
      ring

lemma splitGo_sum (edist : LonLat → LonLat → ℚ) (max_len : ℚ) :
    ∀ (rest cur : List LonLat) (accum : ℚ) (prev : LonLat), cur.getLast? = some prev →
      ((splitGo edist max_len cur accum prev rest).map (chunkLen edist)).sum =
        chunkLen edist cur + chunkLen edist (prev :: rest) := by
  intro rest
  induction rest with
  | nil =>
    intro cur accum prev hlast
    rw [splitGo]
    by_cases h2 : 2 ≤ cur.length
    · rw [if_pos h2]; simp
    · rw [if_neg h2]
      cases cur with
      | nil => simp at hlast
      | cons a t =>
        cases t with
        | nil => simp
        | cons b t2 => simp at h2
  | cons p rest ih =>
    intro cur accum prev hlast
    rw [splitGo]
    by_cases hcl : 2 ≤ cur.length ∧ max_len < accum + edist prev p
    · rw [if_pos hcl]
      simp only [List.map_cons, List.sum_cons]
      rw [ih [prev, p] (edist prev p) p (by simp)]
      simp
      try ring
    · rw [if_neg hcl]
      rw [ih (cur ++ [p]) (accum + edist prev p) p (List.getLast?_concat _)]
      rw [chunkLen_concat edist cur prev p hlast]
      simp
      try ring

lemma splitGo_le (edist : LonLat → LonLat → ℚ) (max_len : ℚ) :
    ∀ (rest cur : List LonLat) (accum : ℚ) (prev : LonLat), cur.getLast? = some prev →
      accum = chunkLen edist cur → accum ≤ max_len → edgesLE edist max_len (prev :: rest) →
      ∀ c ∈ splitGo edist max_len cur accum prev rest, chunkLen edist c ≤ max_len := by
  intro rest
  induction rest with
  | nil =>
    intro cur accum prev hlast haccum hle _hedges c hc
    rw [splitGo] at hc
    by_cases h2 : 2 ≤ cur.length
    · rw [if_pos h2] at hc
      simp at hc
      subst hc
      rw [← haccum]
      exact hle
    · rw [if_neg h2] at hc
      simp at hc
  | cons p rest ih =>
    intro cur accum prev hlast haccum hle hedges c hc
    have hedge1 : edist prev p ≤ max_len := hedges.1
    have hedges2 : edgesLE edist max_len (p :: rest) := hedges.2
    rw [splitGo] at hc
    by_cases hcl : 2 ≤ cur.length ∧ max_len < accum + edist prev p
    · rw [if_pos hcl] at hc
      rcases List.mem_cons.mp hc with hc | hc
      · subst hc
        rw [← haccum]
        exact hle
      · exact ih [prev, p] (edist prev p) p (by simp) (by simp) hedge1 hedges2 c hc
    · rw [if_neg hcl] at hc
      have hcur1 : accum + edist prev p = chunkLen edist (cur ++ [p]) := by
        rw [chunkLen_concat edist cur prev p hlast, haccum]
      by_cases h2 : 2 ≤ cur.length
      · have hle2 : accum + edist prev p ≤ max_len := by
          by_contra hgt
          exact hcl ⟨h2, lt_of_not_le hgt⟩
        exact ih (cur ++ [p]) (accum + edist prev p) p (List.getLast?_concat _)
          hcur1 hle2 hedges2 c hc
      · have hcur0 : chunkLen edist cur = 0 := by
          cases cur with
          | nil => simp at hlast
          | cons a t =>
            cases t with
            | nil => simp
            | cons b t2 => simp at h2
        have hle2 : accum + edist prev p ≤ max_len := by
          rw [haccum, hcur0, zero_add]
          exact hedge1
        exact ih (cur ++ [p]) (accum + edist prev p) p (List.getLast?_concat _)
          hcur1 hle2 hedges2 c hc

lemma splitGo_ne_nil (edist : LonLat → LonLat → ℚ) (max_len : ℚ) :
    ∀ (rest cur : List LonLat) (accum : ℚ) (prev : LonLat), 2 ≤ cur.length →
      splitGo edist max_len cur accum prev rest ≠ [] := by
  intro rest
  induction rest with
  | nil =>
    intro cur accum prev h2
    rw [splitGo, if_pos h2]
    simp
  | cons p rest ih =>
    intro cur accum prev h2
    rw [splitGo]
    by_cases hcl : 2 ≤ cur.length ∧ max_len < accum + edist prev p
    · rw [if_pos hcl]; simp
    · rw [if_neg hcl]
      exact ih (cur ++ [p]) _ p (by simp; omega)

lemma splitGo_head (edist : LonLat → LonLat → ℚ) (max_len : ℚ) :
    ∀ (rest cur : List LonLat) (accum : ℚ) (prev : LonLat) (c : List LonLat)
      (cs : List (List LonLat)), cur ≠ [] →
      splitGo edist max_len cur accum prev rest = c :: cs → c.head? = cur.head? := by
  intro rest
  induction rest with
  | nil =>
    intro cur accum prev c cs _hne h
    rw [splitGo] at h
    by_cases h2 : 2 ≤ cur.length
    · rw [if_pos h2] at h
      cases h
      rfl
    · rw [if_neg h2] at h
      cases h
  | cons p rest ih =>
    intro cur accum prev c cs hne h
    rw [splitGo] at h
    by_cases hcl : 2 ≤ cur.length ∧ max_len < accum + edist prev p
    · rw [if_pos hcl] at h
      cases h
      rfl
    · rw [if_neg hcl] at h
      have h3 : c.head? = (cur ++ [p]).head? :=
        ih (cur ++ [p]) _ p c cs (by simp) h
      rw [h3]
      cases cur with
      | nil => exact absurd rfl hne
      | cons a t => simp

/-- Consecutive chunks share their boundary vertex. -/
def Chained (parts : List Line) : Prop :=
  ∀ k, k + 1 < parts.length → (parts.getD k []).getLast? = (parts.getD (k + 1) []).head?

lemma splitGo_chained (edist : LonLat → LonLat → ℚ) (max_len : ℚ) :
    ∀ (rest cur : List LonLat) (accum : ℚ) (prev : LonLat), cur.getLast? = some prev →
      Chained (splitGo edist max_len cur accum prev rest) := by
  intro rest
  induction rest with
  | nil =>
    intro cur accum prev hlast
    rw [splitGo]
    by_cases h2 : 2 ≤ cur.length
    · rw [if_pos h2]
      intro k hk
      simp at hk
    · rw [if_neg h2]
      intro k hk
      simp at hk
  | cons p rest ih =>
    intro cur accum prev hlast
    rw [splitGo]
    by_cases hcl : 2 ≤ cur.length ∧ max_len < accum + edist prev p
    · rw [if_pos hcl]
      have hrec := ih [prev, p] (edist prev p) p (by simp)
      intro k hk
      cases k with
      | zero =>
        simp only [List.length_cons] at hk
        obtain ⟨c, cs, hcs⟩ : ∃ c cs, splitGo edist max_len [prev, p] (edist prev p) p rest =
            c :: cs := by
          rcases hsp : splitGo edist max_len [prev, p] (edist prev p) p rest with _ | ⟨c, cs⟩
          · rw [hsp] at hk
            simp at hk
          · exact ⟨c, cs, rfl⟩
        have hhead : c.head? = some prev := by
          rw [splitGo_head edist max_len rest [prev, p] (edist prev p) p c cs (by simp) hcs]
          rfl
        simp only [hcs, List.getD_cons_zero, List.getD_cons_succ]
        rw [hhead, hlast]
      | succ k2 =>
        simp only [List.length_cons] at hk
        simp only [List.getD_cons_succ]
        exact hrec k2 (by omega)
    · rw [if_neg hcl]
      exact ih (cur ++ [p]) _ p (List.getLast?_concat _)

/-- C4 counterexample: a chain of two 500 m edges has total metric length 1000,
yet with max_chunk_len_m = 400 the splitter emits 2 chunks (not 3), each of
length 500 (not at most 400).  edist here is the euclidean distance restricted
to the x axis, matching math.hypot for these y = 0 points. -/
theorem splitter_1000_400_cex :
    chunkLen (fun p q => |q.1 - p.1|) [((0 : ℚ), (0 : ℚ)), (500, 0), (1000, 0)] = 1000 ∧
    2 ≤ ([((0 : ℚ), (0 : ℚ)), (500, 0), (1000, 0)] : Line).length ∧
    split_line_max_length_meters (fun p q => |q.1 - p.1|)
        [(0, 0), (500, 0), (1000, 0)] 400 =
      [[(0, 0), (500, 0)], [(500, 0), (1000, 0)]] ∧
    chunkLen (fun p q => |q.1 - p.1|) [((0 : ℚ), (0 : ℚ)), (500, 0)] = 500 := by
  refine ⟨?_, ?_, ?_, ?_⟩ <;> with_unfolding_all decide

/-- C4 as amended: for a chain of at least 2 points all of whose edges are at
most 400 m and whose total metric length is 1000 m, the splitter with
max_chunk_len_m = 400 emits at least 3 chunks, each of metric length at most
400, and consecutive chunks share their boundary point (the last point of
chunk k is the first point of chunk k+1).  Without the edge-length bound the
chunk count can be 2 and a chunk can exceed 400 m; the count need not be
exactly 3. -/
theorem splitter_1000_400 (edist : LonLat → LonLat → ℚ) (line : Line)
    (h2 : 2 ≤ line.length) (hedges : edgesLE edist 400 line)
    (htot : chunkLen edist line = 1000) :
    3 ≤ (split_line_max_length_meters edist line 400).length ∧
    (∀ c ∈ split_line_max_length_meters edist line 400, chunkLen edist c ≤ 400) ∧
    Chained (split_line_max_length_meters edist line 400) := by
  have hnlt : ¬ line.length < 2 := by omega
  rw [split_line_max_length_meters, if_neg hnlt]
  cases line with
  | nil => simp at h2
  | cons p0 rest =>
    simp only [List.headD_cons, List.drop_succ_cons, List.drop_zero]
    have hle : ∀ c ∈ splitGo edist 400 [p0] 0 p0 rest, chunkLen edist c ≤ 400 :=
      splitGo_le edist 400 rest [p0] 0 p0 (by simp) (by simp) (by norm_num) hedges
    refine ⟨?_, hle, splitGo_chained edist 400 rest [p0] 0 p0 (by simp)⟩
    have hsum : ((splitGo edist 400 [p0] 0 p0 rest).map (chunkLen edist)).sum = 1000 := by
      rw [splitGo_sum edist 400 rest [p0] 0 p0 (by simp)]
      simpa using htot
    by_contra hlt
    push_neg at hlt
    have hbound : ((splitGo edist 400 [p0] 0 p0 rest).map (chunkLen edist)).sum ≤
        ((splitGo edist 400 [p0] 0 p0 rest).map (chunkLen edist)).length • (400 : ℚ) := by
      apply List.sum_le_card_nsmul
      intro x hx
      rcases List.mem_map.mp hx with ⟨c, hc, hcx⟩
      rw [← hcx]
      exact hle c hc
    rw [hsum, List.length_map] at hbound
    have hlen : ((splitGo edist 400 [p0] 0 p0 rest).length : ℚ) ≤ 2 := by
      exact_mod_cast Nat.lt_succ_iff.mp hlt
    rw [nsmul_eq_mul] at hbound
    nlinarith

/-! ## C8: the clusterer centroid is the mean of its absorbed points -/

/-- The spatial hash only holds valid cluster ids. -/
def BWF (st : CState) : Prop :=
  ∀ k cid, cid ∈ st.buckets k → cid < st.centers.length

/-- The centroid bookkeeping invariant relative to an assign trace: every
trace entry names an existing cluster, and every stored cluster (x, y, count)
satisfies count = number of absorbed points and x * count, y * count are the
coordinate sums of the absorbed points. -/
def CentroidOK (st : CState) (tr : List (LonLat × ℕ)) : Prop :=
  (∀ e ∈ tr, e.2 < st.centers.length) ∧
  (∀ cid, cid < st.centers.length →
    0 < (clusterMembers tr cid).length ∧
    (st.centers.getD cid (0, 0, 0)).2.2 = ((clusterMembers tr cid).length : ℚ) ∧
    (st.centers.getD cid (0, 0, 0)).1 * (st.centers.getD cid (0, 0, 0)).2.2 =
      sumX (clusterMembers tr cid) ∧
    (st.centers.getD cid (0, 0, 0)).2.1 * (st.centers.getD cid (0, 0, 0)).2.2 =
      sumY (clusterMembers tr cid))

lemma scanStep_some (st : CState) (x y : ℚ) (best : Option (ℕ × ℚ)) (cid : ℕ) (r : ℕ × ℚ)
    (h : scanStep st x y best cid = some r) : best = some r ∨ r.1 = cid := by
  rcases best with _ | b0
  · rw [scanStep] at h
    by_cases hc : (x - (st.centers.getD cid (0, 0, 0)).1) * (x - (st.centers.getD cid (0, 0, 0)).1) +
        (y - (st.centers.getD cid (0, 0, 0)).2.1) * (y - (st.centers.getD cid (0, 0, 0)).2.1) ≤
        st.tol * st.tol
    · simp only [if_pos hc] at h
      right
      cases h
      rfl
    · simp only [if_neg hc] at h
      cases h
  · rw [scanStep] at h
    by_cases hc : (x - (st.centers.getD cid (0, 0, 0)).1) * (x - (st.centers.getD cid (0, 0, 0)).1) +
        (y - (st.centers.getD cid (0, 0, 0)).2.1) * (y - (st.centers.getD cid (0, 0, 0)).2.1) ≤
        st.tol * st.tol ∧
        (x - (st.centers.getD cid (0, 0, 0)).1) * (x - (st.centers.getD cid (0, 0, 0)).1) +
        (y - (st.centers.getD cid (0, 0, 0)).2.1) * (y - (st.centers.getD cid (0, 0, 0)).2.1) < b0.2
    · simp only [if_pos hc] at h
      right
      cases h
      rfl
    · simp only [if_neg hc] at h
      left
      exact h.symm ▸ rfl

lemma foldl_scanStep_mem (st : CState) (x y : ℚ) :
    ∀ (L : List ℕ) (init : Option (ℕ × ℚ)) (r : ℕ × ℚ),
      L.foldl (scanStep st x y) init = some r → init = some r ∨ r.1 ∈ L := by
  intro L
  induction L with
  | nil => intro init r h; exact Or.inl h
  | cons cid L2 ih =>
    intro init r h
    rw [List.foldl_cons] at h
    rcases ih (scanStep st x y init cid) r h with h2 | h2
    · rcases scanStep_some st x y init cid r h2 with h3 | h3
      · exact Or.inl h3
      · exact Or.inr (by rw [h3]; exact List.mem_cons_self _ _)
    · exact Or.inr (List.mem_cons_of_mem _ h2)

lemma findBest_mem (st : CState) (x y : ℚ) (b : ℤ × ℤ) (r : ℕ × ℚ)
    (h : findBest st x y b = some r) : ∃ k, r.1 ∈ st.buckets k := by
  rw [findBest] at h
  suffices haux : ∀ (os : List (ℤ × ℤ)) (init : Option (ℕ × ℚ)),
      os.foldl (fun best o => (st.buckets (b.1 + o.1, b.2 + o.2)).foldl (scanStep st x y) best)
        init = some r → init = some r ∨ ∃ k, r.1 ∈ st.buckets k by
    rcases haux neighborOffsets none h with h2 | h2
    · cases h2
    · exact h2
  intro os
  induction os with
  | nil => intro init h2; exact Or.inl h2
  | cons o os2 ih =>
    intro init h2
    rw [List.foldl_cons] at h2
    rcases ih _ h2 with h3 | h3
    · rcases foldl_scanStep_mem st x y _ init r h3 with h4 | h4
      · exact Or.inl h4
      · exact Or.inr ⟨_, h4⟩
    · exact Or.inr h3

lemma findBest_lt (st : CState) (x y : ℚ) (b : ℤ × ℤ) (r : ℕ × ℚ) (hwf : BWF st)
    (h : findBest st x y b = some r) : r.1 < st.centers.length := by
  rcases findBest_mem st x y b r h with ⟨k, hk⟩
  exact hwf k r.1 hk

/-- The two possible outcomes of one assign call, in terms of the returned
cluster id and the centers list: a fresh cluster appended at the end, or an
online centroid update of an existing cluster. -/
lemma assign_cases (fwd : LonLat → LonLat) (st : CState) (p : LonLat) (hwf : BWF st) :
    ((assign fwd st p).2 = st.centers.length ∧
      (assign fwd st p).1.centers = st.centers ++ [((fwd p).1, (fwd p).2, 1)]) ∨
    ((assign fwd st p).2 < st.centers.length ∧
      (assign fwd st p).1.centers = st.centers.set (assign fwd st p).2
        (((st.centers.getD (assign fwd st p).2 (0, 0, 0)).1 *
            (st.centers.getD (assign fwd st p).2 (0, 0, 0)).2.2 + (fwd p).1) /
            ((st.centers.getD (assign fwd st p).2 (0, 0, 0)).2.2 + 1),
          ((st.centers.getD (assign fwd st p).2 (0, 0, 0)).2.1 *
            (st.centers.getD (assign fwd st p).2 (0, 0, 0)).2.2 + (fwd p).2) /
            ((st.centers.getD (assign fwd st p).2 (0, 0, 0)).2.2 + 1),
          (st.centers.getD (assign fwd st p).2 (0, 0, 0)).2.2 + 1)) := by
  rcases hfb : findBest st (fwd p).1 (fwd p).2 (bucketId st (fwd p).1 (fwd p).2) with _ | best
  · left
    constructor
    · simp [assign, hfb]
    · simp [assign, hfb]
  · right
    have hlt := findBest_lt st (fwd p).1 (fwd p).2 _ best hwf hfb
    have hsnd : (assign fwd st p).2 = best.1 := by
      simp only [assign, hfb]
      split_ifs <;> rfl
    constructor
    · rw [hsnd]; exact hlt
    · rw [hsnd]
      simp only [assign, hfb]
      split_ifs <;> rfl

lemma assign_BWF (fwd : LonLat → LonLat) (st : CState) (p : LonLat) (hwf : BWF st) :
    BWF (assign fwd st p).1 := by
  rcases hfb : findBest st (fwd p).1 (fwd p).2 (bucketId st (fwd p).1 (fwd p).2) with _ | best
  · intro k cid hmem
    simp only [assign, hfb] at hmem ⊢
    rw [List.length_append, List.length_singleton]
    by_cases hk : k = bucketId st (fwd p).1 (fwd p).2
    · rw [if_pos hk] at hmem
      rcases List.mem_append.mp hmem with h | h
      · exact Nat.lt_succ_of_lt (hwf k cid h)
      · simp at h
        omega
    · rw [if_neg hk] at hmem
      exact Nat.lt_succ_of_lt (hwf k cid hmem)
  · have hlt := findBest_lt st (fwd p).1 (fwd p).2 _ best hwf hfb
    intro k cid hmem
    simp only [assign, hfb] at hmem ⊢
    split_ifs at hmem ⊢ with hnb
    · dsimp only at hmem ⊢
      try simp only [List.length_set]
      split_ifs at hmem with hk1 hk2
      · exact hwf k cid (List.mem_of_mem_erase hmem)
      · rcases List.mem_append.mp hmem with h | h
        · exact hwf k cid h
        · simp at h
          omega
      · exact hwf k cid hmem
    · dsimp only at hmem ⊢
      try simp only [List.length_set]
      exact hwf k cid hmem

lemma clusterMembers_append (tr : List (LonLat × ℕ)) (q : LonLat) (rid cid : ℕ) :
    clusterMembers (tr ++ [(q, rid)]) cid =
      clusterMembers tr cid ++ if rid = cid then [q] else [] := by
  unfold clusterMembers
  rw [List.filter_append, List.map_append]
  by_cases h : rid = cid <;> simp [h]

lemma clusterMembers_of_lt (tr : List (LonLat × ℕ)) (n : ℕ) (h : ∀ e ∈ tr, e.2 < n) :
    clusterMembers tr n = [] := by
  unfold clusterMembers
  have h2 : tr.filter (fun e => e.2 == n) = [] := by
    rw [List.filter_eq_nil_iff]
    intro e he
    have := h e he
    simp
    omega
  rw [h2]
  rfl

lemma sumX_append (a b : List LonLat) : sumX (a ++ b) = sumX a + sumX b := by
  simp [sumX]

lemma sumY_append (a b : List LonLat) : sumY (a ++ b) = sumY a + sumY b := by
  simp [sumY]

/-- One assign call preserves the centroid bookkeeping invariant, extending
the trace by the projected point and the returned cluster id. -/
lemma assign_step (fwd : LonLat → LonLat) (st : CState) (p : LonLat) (tr : List (LonLat × ℕ))
    (hwf : BWF st) (hok : CentroidOK st tr) :
    CentroidOK (assign fwd st p).1 (tr ++ [(fwd p, (assign fwd st p).2)]) := by
  obtain ⟨htr, hmean⟩ := hok
  rcases assign_cases fwd st p hwf with ⟨hrid, hcenters⟩ | ⟨hrid, hcenters⟩
  · constructor
    · intro e he
      rw [hcenters, List.length_append, List.length_singleton]
      rcases List.mem_append.mp he with he | he
      · exact Nat.lt_succ_of_lt (htr e he)
      · simp at he
        rw [he]
        simp [hrid]
    · intro cid hcid
      rw [hcenters, List.length_append, List.length_singleton] at hcid
      rw [clusterMembers_append]
      by_cases hc : cid < st.centers.length
      · have hne : (assign fwd st p).2 ≠ cid := by omega
        rw [if_neg hne, List.append_nil]
        have hgetD : (assign fwd st p).1.centers.getD cid (0, 0, 0) =
            st.centers.getD cid (0, 0, 0) := by
          rw [hcenters]
          exact List.getD_append _ _ _ _ hc
        rw [hgetD]
        exact hmean cid hc
      · have hceq : cid = st.centers.length := by omega
        have heq : (assign fwd st p).2 = cid := by rw [hrid, hceq]
        rw [if_pos heq]
        rw [clusterMembers_of_lt tr cid (fun e he => hceq ▸ htr e he), List.nil_append]
        have hgetD : (assign fwd st p).1.centers.getD cid (0, 0, 0) =
            ((fwd p).1, (fwd p).2, 1) := by
          rw [hcenters, hceq, List.getD_append_right _ _ _ _ (le_refl _), Nat.sub_self]
          rfl
        rw [hgetD]
        refine ⟨by simp, by simp, by simp [sumX], by simp [sumY]⟩
  · constructor
    · intro e he
      rw [hcenters, List.length_set]
      rcases List.mem_append.mp he with he | he
      · exact htr e he
      · simp at he
        rw [he]
        simpa using hrid
    · intro cid hcid
      rw [hcenters, List.length_set] at hcid
      rw [clusterMembers_append]
      by_cases hc : (assign fwd st p).2 = cid
      · rw [if_pos hc]
        obtain ⟨hpos, hcnt, hx, hy⟩ := hmean cid hcid
        have hgetD : (assign fwd st p).1.centers.getD cid (0, 0, 0) =
            (((st.centers.getD cid (0, 0, 0)).1 * (st.centers.getD cid (0, 0, 0)).2.2 +
                (fwd p).1) / ((st.centers.getD cid (0, 0, 0)).2.2 + 1),
              ((st.centers.getD cid (0, 0, 0)).2.1 * (st.centers.getD cid (0, 0, 0)).2.2 +
                (fwd p).2) / ((st.centers.getD cid (0, 0, 0)).2.2 + 1),
              (st.centers.getD cid (0, 0, 0)).2.2 + 1) := by
          rw [hcenters, hc, List.getD_eq_getElem?_getD,
            List.getElem?_set_self (hc ▸ hcid), Option.getD_some]
        have hden : (st.centers.getD cid (0, 0, 0)).2.2 + 1 ≠ 0 := by
          rw [hcnt]
          positivity
        rw [hgetD]
        refine ⟨by simp, ?_, ?_, ?_⟩
        · simp only [List.length_append, List.length_singleton]
          rw [hcnt]
          push_cast
          ring
        · rw [div_mul_cancel₀ _ hden, sumX_append, hx]
          simp [sumX]
        · rw [div_mul_cancel₀ _ hden, sumY_append, hy]
          simp [sumY]
      · rw [if_neg hc, List.append_nil]
        have hgetD : (assign fwd st p).1.centers.getD cid (0, 0, 0) =
            st.centers.getD cid (0, 0, 0) := by
          rw [hcenters, List.getD_eq_getElem?_getD, List.getElem?_set_ne hc,
            ← List.getD_eq_getElem?_getD]
        rw [hgetD]
        exact hmean cid hcid

/-- assign over a list of points preserves both invariants, with the trace
growing by the trace of the new points. -/
lemma assignAll_ok (fwd : LonLat → LonLat) :
    ∀ (ps : List LonLat) (st : CState) (tr : List (LonLat × ℕ)), BWF st → CentroidOK st tr →
      BWF (assignAll fwd st ps) ∧
        CentroidOK (assignAll fwd st ps) (tr ++ assignTrace fwd st ps) := by
  intro ps
  induction ps with
  | nil =>
    intro st tr h1 h2
    rw [assignAll, assignTrace, List.append_nil]
    exact ⟨h1, h2⟩
  | cons p ps ih =>
    intro st tr h1 h2
    rw [assignAll, assignTrace]
    have h1' := assign_BWF fwd st p h1
    have h2' := assign_step fwd st p tr h1 h2
    have h3 := ih (assign fwd st p).1 (tr ++ [(fwd p, (assign fwd st p).2)]) h1' h2'
    simpa [List.append_assoc] using h3

/-- C8: after any sequence of assign calls (exact rational arithmetic), each
stored centroid of each cluster is the arithmetic mean of the projected points that
were absorbed into it, and its stored count is the number of those points. -/
theorem clusterer_centroid_mean (fwd : LonLat → LonLat) (tolerance_m : ℚ) (pts : List LonLat)
    (cid : ℕ) (hcid : cid < (assignAll fwd (initC tolerance_m) pts).centers.length) :
    0 < (clusterMembers (assignTrace fwd (initC tolerance_m) pts) cid).length ∧
    ((assignAll fwd (initC tolerance_m) pts).centers.getD cid (0, 0, 0)).2.2 =
      ((clusterMembers (assignTrace fwd (initC tolerance_m) pts) cid).length : ℚ) ∧
    ((assignAll fwd (initC tolerance_m) pts).centers.getD cid (0, 0, 0)).1 =
      sumX (clusterMembers (assignTrace fwd (initC tolerance_m) pts) cid) /
        ((clusterMembers (assignTrace fwd (initC tolerance_m) pts) cid).length : ℚ) ∧
    ((assignAll fwd (initC tolerance_m) pts).centers.getD cid (0, 0, 0)).2.1 =
      sumY (clusterMembers (assignTrace fwd (initC tolerance_m) pts) cid) /
        ((clusterMembers (assignTrace fwd (initC tolerance_m) pts) cid).length : ℚ) := by
  have hinit1 : BWF (initC tolerance_m) := by
    intro k cid2 hmem
    simp [initC] at hmem
  have hinit2 : CentroidOK (initC tolerance_m) [] := by
    constructor
    · intro e he
      simp at he
    · intro cid2 hcid2
      simp [initC] at hcid2
  obtain ⟨_, htr, hmean⟩ := assignAll_ok fwd pts (initC tolerance_m) [] hinit1 hinit2
  obtain ⟨hpos, hcnt, hx, hy⟩ := hmean cid hcid
  rw [List.nil_append] at hpos hcnt hx hy
  have hlen : ((clusterMembers (assignTrace fwd (initC tolerance_m) pts) cid).length : ℚ) ≠ 0 := by
    exact_mod_cast Nat.pos_iff_ne_zero.mp hpos
  refine ⟨hpos, hcnt, ?_, ?_⟩
  · rw [eq_div_iff hlen, ← hcnt]
    exact hx
  · rw [eq_div_iff hlen, ← hcnt]
    exact hy

/-- Witness for C8 at a concrete input: two points absorbed into cluster 0. -/
theorem clusterer_centroid_mean_witness :
    0 < (assignAll (fun p => p) (initC 1) [(0, 0), (1/2, 0)]).centers.length ∧
    ((assignAll (fun p => p) (initC 1) [(0, 0), (1/2, 0)]).centers.getD 0 (0, 0, 0)).1 =
      sumX (clusterMembers (assignTrace (fun p => p) (initC 1) [(0, 0), (1/2, 0)]) 0) /
        ((clusterMembers (assignTrace (fun p => p) (initC 1) [(0, 0), (1/2, 0)]) 0).length : ℚ) :=
  ⟨by with_unfolding_all decide,
    (clusterer_centroid_mean (fun p => p) 1 [(0, 0), (1/2, 0)] 0
      (by with_unfolding_all decide)).2.2.1⟩

/-! ## C2: snapped endpoints and centroid drift -/

/-- Every existing cluster has a positive stored count. -/
def CntPos (st : CState) : Prop :=
  ∀ cid, cid < st.centers.length → 0 < (st.centers.getD cid (0, 0, 0)).2.2

/-- If cluster c exists, its stored centroid is the metric point p0. -/
def CentersAt (st : CState) (c : ℕ) (p0 : LonLat) : Prop :=
  c < st.centers.length →
    ((st.centers.getD c (0, 0, 0)).1, (st.centers.getD c (0, 0, 0)).2.1) = p0

lemma assign_len_mono (fwd : LonLat → LonLat) (st : CState) (p : LonLat) (hwf : BWF st) :
    st.centers.length ≤ (assign fwd st p).1.centers.length := by
  rcases assign_cases fwd st p hwf with ⟨_, h2⟩ | ⟨_, h2⟩ <;> rw [h2] <;> simp

lemma assign_ret_lt (fwd : LonLat → LonLat) (st : CState) (p : LonLat) (hwf : BWF st) :
    (assign fwd st p).2 < (assign fwd st p).1.centers.length := by
  rcases assign_cases fwd st p hwf with ⟨h1, h2⟩ | ⟨h1, h2⟩ <;> rw [h2] <;> simp [h1]

lemma assign_preserve (fwd : LonLat → LonLat) (st : CState) (p : LonLat) (c : ℕ) (hwf : BWF st)
    (hne : (assign fwd st p).2 ≠ c) (hc : c < st.centers.length) :
    (assign fwd st p).1.centers.getD c (0, 0, 0) = st.centers.getD c (0, 0, 0) := by
  rcases assign_cases fwd st p hwf with ⟨_, h2⟩ | ⟨_, h2⟩
  · rw [h2]
    exact List.getD_append _ _ _ _ hc
  · rw [h2, List.getD_eq_getElem?_getD, List.getElem?_set_ne hne, ← List.getD_eq_getElem?_getD]

lemma assign_CntPos (fwd : LonLat → LonLat) (st : CState) (p : LonLat) (hwf : BWF st)
    (hpos : CntPos st) : CntPos (assign fwd st p).1 := by
  intro cid hcid
  rcases assign_cases fwd st p hwf with ⟨h1, h2⟩ | ⟨h1, h2⟩
  · rw [h2] at hcid ⊢
    rw [List.length_append, List.length_singleton] at hcid
    by_cases hc : cid < st.centers.length
    · rw [List.getD_append _ _ _ _ hc]
      exact hpos cid hc
    · have hceq : cid = st.centers.length := by omega
      rw [hceq, List.getD_append_right _ _ _ _ (le_refl _), Nat.sub_self]
      norm_num
  · rw [h2] at hcid ⊢
    rw [List.length_set] at hcid
    by_cases hc : (assign fwd st p).2 = cid
    · rw [← hc]
      rw [List.getD_eq_getElem?_getD, List.getElem?_set_self h1, Option.getD_some]
      have hold := hpos _ h1
      simp only []
      linarith
    · rw [List.getD_eq_getElem?_getD, List.getElem?_set_ne hc, ← List.getD_eq_getElem?_getD]
      exact hpos cid hcid

/-- One assign call keeps the centroid of cluster c at p0, provided that if the
point was absorbed into c then its projection is exactly p0. -/
lemma assign_CentersAt (fwd : LonLat → LonLat) (st : CState) (p : LonLat) (c : ℕ) (p0 : LonLat)
    (hwf : BWF st) (hpos : CntPos st) (hAt : CentersAt st c p0)
    (hp : (assign fwd st p).2 = c → fwd p = p0) : CentersAt (assign fwd st p).1 c p0 := by
  intro hc'
  by_cases hrc : (assign fwd st p).2 = c
  · have hfp := hp hrc
    rcases assign_cases fwd st p hwf with ⟨h1, h2⟩ | ⟨h1, h2⟩
    · have hceq : c = st.centers.length := by rw [← hrc, h1]
      rw [h2, hceq, List.getD_append_right _ _ _ _ (le_refl _), Nat.sub_self]
      rw [← hfp]
      rfl
    · have hclt : c < st.centers.length := hrc ▸ h1
      have hxy := hAt hclt
      have hcnt := hpos c hclt
      have hx1 : (st.centers.getD c (0, 0, 0)).1 = p0.1 := congrArg Prod.fst hxy
      have hy1 : (st.centers.getD c (0, 0, 0)).2.1 = p0.2 := congrArg Prod.snd hxy
      have hq1 : (fwd p).1 = p0.1 := congrArg Prod.fst hfp
      have hq2 : (fwd p).2 = p0.2 := congrArg Prod.snd hfp
      rw [h2, hrc, List.getD_eq_getElem?_getD, List.getElem?_set_self hclt, Option.getD_some]
      have hden : (st.centers.getD c (0, 0, 0)).2.2 + 1 ≠ 0 := by linarith
      simp only [hx1, hy1, hq1, hq2]
      rw [Prod.mk.injEq]
      constructor
      · rw [div_eq_iff hden]
        ring
      · rw [div_eq_iff hden]
        ring
  · rcases assign_cases fwd st p hwf with ⟨h1, h2⟩ | ⟨h1, h2⟩
    · have hlen : (assign fwd st p).1.centers.length = st.centers.length + 1 := by
        rw [h2]
        simp
      have hclt : c < st.centers.length := by
        rw [hlen] at hc'
        rcases Nat.lt_succ_iff_lt_or_eq.mp hc' with h | h
        · exact h
        · exact absurd (h1.trans h.symm) hrc
      rw [h2, List.getD_append _ _ _ _ hclt]
      exact hAt hclt
    · have hclt : c < st.centers.length := by
        rw [h2, List.length_set] at hc'
        exact hc'
      rw [h2, List.getD_eq_getElem?_getD, List.getElem?_set_ne hrc, ← List.getD_eq_getElem?_getD]
      exact hAt hclt

lemma headD_set_pair (line : Line) (x y : LonLat) (h2 : 2 ≤ line.length) :
    ((line.set 0 x).set (line.length - 1) y).headD (0, 0) = x := by
  cases line with
  | nil => simp at h2
  | cons a t =>
    cases t with
    | nil => simp at h2
    | cons b t2 => simp [List.set]

lemma getLastD_set_last :
    ∀ (line : Line) (y d : LonLat), line ≠ [] →
      (line.set (line.length - 1) y).getLastD d = y := by
  intro line
  induction line with
  | nil => intro y d h; exact absurd rfl h
  | cons a t ih =>
    intro y d _h
    cases t with
    | nil => rfl
    | cons b t2 =>
      have hstep : (a :: b :: t2).set ((a :: b :: t2).length - 1) y =
          a :: ((b :: t2).set ((b :: t2).length - 1) y) := by
        simp [List.set]
      rw [hstep, List.getLastD_cons]
      exact ih y a (by simp)

lemma coords_getLastD_set (line : Line) (x y : LonLat) (h2 : 2 ≤ line.length) :
    ((line.set 0 x).set (line.length - 1) y).getLastD (0, 0) = y := by
  have hne : line.set 0 x ≠ [] := by
    intro h
    have hl : (line.set 0 x).length = 0 := by rw [h]; rfl
    rw [List.length_set] at hl
    omega
  have hlen2 : line.length - 1 = (line.set 0 x).length - 1 := by rw [List.length_set]
  rw [hlen2]
  exact getLastD_set_last (line.set 0 x) y (0, 0) hne

/-- C2 as amended: all segments touching cluster c carry the same literal
coordinate inv p0 at that junction, provided every endpoint absorbed into c
during the run projects exactly to p0 (so the centroid never drifts); the
snapped coordinate is the cluster center current at the segment's creation. -/
lemma buildSegs_snapped (fwd inv : LonLat → LonLat) (c : ℕ) (p0 : LonLat) :
    ∀ (lines : List Line) (st : CState), BWF st → CntPos st → CentersAt st c p0 →
      (∀ e ∈ segTrace fwd st lines, e.2 = c → e.1 = p0) →
      ∀ sg ∈ (buildSegs fwd inv st lines).2,
        (sg.start = c → sg.coords.headD (0, 0) = inv p0) ∧
        (sg.endc = c → sg.coords.getLastD (0, 0) = inv p0) := by
  intro lines
  induction lines with
  | nil =>
    intro st _ _ _ _ sg hsg
    rw [buildSegs] at hsg
    simp at hsg
  | cons line rest ih =>
    intro st hwf hpos hAt htr sg hsg
    by_cases hlen : line.length < 2
    · rw [buildSegs, if_pos hlen] at hsg
      rw [segTrace, if_pos hlen] at htr
      exact ih st hwf hpos hAt htr sg hsg
    · rw [buildSegs, if_neg hlen] at hsg
      rw [segTrace, if_neg hlen] at htr
      have h2 : 2 ≤ line.length := by omega
      have hp1 : (assign fwd st (line.headD (0, 0))).2 = c →
          fwd (line.headD (0, 0)) = p0 := by
        intro h
        exact htr (fwd (line.headD (0, 0)), (assign fwd st (line.headD (0, 0))).2)
          (List.mem_cons_self _ _) h
      have hwf1 := assign_BWF fwd st (line.headD (0, 0)) hwf
      have hpos1 := assign_CntPos fwd st (line.headD (0, 0)) hwf hpos
      have hAt1 := assign_CentersAt fwd st (line.headD (0, 0)) c p0 hwf hpos hAt hp1
      have hp2 : (assign fwd (assign fwd st (line.headD (0, 0))).1
          (line.getLastD (0, 0))).2 = c → fwd (line.getLastD (0, 0)) = p0 := by
        intro h
        exact htr (fwd (line.getLastD (0, 0)), _)
          (List.mem_cons_of_mem _ (List.mem_cons_self _ _)) h
      have hwf2 := assign_BWF fwd _ (line.getLastD (0, 0)) hwf1
      have hpos2 := assign_CntPos fwd _ (line.getLastD (0, 0)) hwf1 hpos1
      have hAt2 := assign_CentersAt fwd _ (line.getLastD (0, 0)) c p0 hwf1 hpos1 hAt1 hp2
      simp only [List.mem_cons] at hsg
      rcases hsg with hsg | hsg
      · subst hsg
        constructor
        · intro hstart
          simp only at hstart ⊢
          rw [headD_set_pair line _ _ h2]
          have hclt1 : c < (assign fwd st (line.headD (0, 0))).1.centers.length :=
            hstart ▸ assign_ret_lt fwd st (line.headD (0, 0)) hwf
          have hclt2 : c < (assign fwd (assign fwd st (line.headD (0, 0))).1
              (line.getLastD (0, 0))).1.centers.length :=
            lt_of_lt_of_le hclt1 (assign_len_mono fwd _ (line.getLastD (0, 0)) hwf1)
          have hxy := hAt2 hclt2
          rw [center, hstart, hxy]
        · intro hend
          simp only at hend ⊢
          rw [coords_getLastD_set line _ _ h2]
          have hclt2 : c < (assign fwd (assign fwd st (line.headD (0, 0))).1
              (line.getLastD (0, 0))).1.centers.length :=
            hend ▸ assign_ret_lt fwd _ (line.getLastD (0, 0)) hwf1
          have hxy := hAt2 hclt2
          rw [center, hend, hxy]
      · exact ih _ hwf2 hpos2 hAt2
          (fun e he hc2 => htr e (List.mem_cons_of_mem _ (List.mem_cons_of_mem _ he)) hc2)
          sg hsg

/-- C2 as amended, stated for stitch_lines input processing: if every endpoint
absorbed into cluster c projects to the same metric point p0, then every
segment whose start or end cluster is c carries exactly inv p0 as its snapped
coordinate there — so touching segments meet in literal coordinate equality.
(The original claim without the no-drift hypothesis is refuted by
snapped_endpoints_drift_cex.) -/
theorem snapped_endpoints_agree (fwd inv : LonLat → LonLat) (lines : List Line)
    (snap_tol_m : ℚ) (c : ℕ) (p0 : LonLat)
    (htr : ∀ e ∈ segTrace fwd (initC snap_tol_m) lines, e.2 = c → e.1 = p0) :
    ∀ sg ∈ stitchSegs fwd inv lines snap_tol_m,
      (sg.start = c → sg.coords.headD (0, 0) = inv p0) ∧
      (sg.endc = c → sg.coords.getLastD (0, 0) = inv p0) := by
  apply buildSegs_snapped fwd inv c p0 lines (initC snap_tol_m)
  · intro k cid hmem
    simp [initC] at hmem
  · intro cid hcid
    simp [initC] at hcid
  · intro hc
    simp [initC] at hc
  · exact htr

/-- Witness for C2 (amended): two lines sharing the exact endpoint (0, 0);
the second segment starts at cluster 0 and its snapped head is (0, 0). -/
theorem snapped_endpoints_agree_witness :
    (∀ e ∈ segTrace (fun p => p) (initC 1) [[(0, 0), (10, 0)], [(0, 0), (20, 0)]],
        e.2 = 0 → e.1 = ((0 : ℚ), (0 : ℚ))) ∧
    (⟨[(0, 0), (20, 0)], 0, 2⟩ : Seg) ∈
      stitchSegs (fun p => p) (fun p => p) [[(0, 0), (10, 0)], [(0, 0), (20, 0)]] 1 ∧
    (⟨[((0 : ℚ), (0 : ℚ)), (20, 0)], 0, 2⟩ : Seg).coords.headD (0, 0) = ((0 : ℚ), (0 : ℚ)) := by
  have h1 : ∀ e ∈ segTrace (fun p => p) (initC 1) [[(0, 0), (10, 0)], [(0, 0), (20, 0)]],
      e.2 = 0 → e.1 = ((0 : ℚ), (0 : ℚ)) := by
    with_unfolding_all decide
  have h2 : (⟨[(0, 0), (20, 0)], 0, 2⟩ : Seg) ∈
      stitchSegs (fun p => p) (fun p => p) [[(0, 0), (10, 0)], [(0, 0), (20, 0)]] 1 := by
    with_unfolding_all decide
  exact ⟨h1, h2, (snapped_endpoints_agree (fun p => p) (fun p => p)
    [[(0, 0), (10, 0)], [(0, 0), (20, 0)]] 1 0 (0, 0) h1 ⟨[(0, 0), (20, 0)], 0, 2⟩ h2).1 rfl⟩

/-- C2 counterexample: with lines [(0,0),(10,0)] and [(1/2,0),(20,0)] and
snap tolerance 1 (identity projection), both segments' start endpoints are
assigned to cluster 0, yet their snapped start coordinates differ — (0,0) for
the first, (1/4,0) for the second — because the second absorption drifted the
centroid after the first segment was already snapped. -/
theorem snapped_endpoints_drift_cex :
    ((stitchSegs (fun p => p) (fun p => p) [[(0, 0), (10, 0)], [(1/2, 0), (20, 0)]] 1).getD 0
        dummySeg).start =
      ((stitchSegs (fun p => p) (fun p => p) [[(0, 0), (10, 0)], [(1/2, 0), (20, 0)]] 1).getD 1
        dummySeg).start ∧
    ((stitchSegs (fun p => p) (fun p => p) [[(0, 0), (10, 0)], [(1/2, 0), (20, 0)]] 1).getD 0
        dummySeg).coords.headD (0, 0) = ((0 : ℚ), (0 : ℚ)) ∧
    ((stitchSegs (fun p => p) (fun p => p) [[(0, 0), (10, 0)], [(1/2, 0), (20, 0)]] 1).getD 1
        dummySeg).coords.headD (0, 0) = ((1/4 : ℚ), (0 : ℚ)) ∧
    ¬ ((stitchSegs (fun p => p) (fun p => p) [[(0, 0), (10, 0)], [(1/2, 0), (20, 0)]] 1).getD 0
        dummySeg).coords.headD (0, 0) =
      ((stitchSegs (fun p => p) (fun p => p) [[(0, 0), (10, 0)], [(1/2, 0), (20, 0)]] 1).getD 1
        dummySeg).coords.headD (0, 0) := by
  refine ⟨?_, ?_, ?_, ?_⟩ <;> with_unfolding_all decide

/-! ## C1, C3, C9: the chain stitcher -/

lemma remove_idx_used (segs : List Seg) (st : StState) (i : ℕ) :
    (remove_idx segs st i).used = Function.update st.used i true := rfl

lemma remove_idx_starts (segs : List Seg) (st : StState) (i : ℕ) :
    (remove_idx segs st i).starts = fun c =>
      if c = (segs.getD i dummySeg).start then (st.starts c).erase i else st.starts c := rfl

lemma remove_idx_ends (segs : List Seg) (st : StState) (i : ℕ) :
    (remove_idx segs st i).ends = fun c =>
      if c = (segs.getD i dummySeg).endc then (st.ends c).erase i else st.ends c := rfl

lemma mem_unusedIdx (segs : List Seg) (st : StState) (a : ℕ) :
    a ∈ unusedIdx segs st ↔ a < segs.length ∧ st.used a = false := by
  simp [unusedIdx, List.mem_filter, List.mem_range]

lemma pick_next_unused (st : StState) (c j : ℕ) (b : Bool)
    (h : pick_next st c = some (j, b)) : st.used j = false := by
  rw [pick_next] at h
  rcases hf : (st.starts c).find? (fun i => ! st.used i) with _ | j1
  · rw [hf] at h
    rcases hf2 : (st.ends c).find? (fun i => ! st.used i) with _ | j2
    · rw [hf2] at h
      cases h
    · rw [hf2] at h
      cases h
      simpa using List.find?_some hf2
  · rw [hf] at h
    cases h
    simpa using List.find?_some hf

lemma pick_next_mem (st : StState) (c j : ℕ) (b : Bool)
    (h : pick_next st c = some (j, b)) :
    (b = true ∧ j ∈ st.starts c) ∨ (b = false ∧ j ∈ st.ends c) := by
  rw [pick_next] at h
  rcases hf : (st.starts c).find? (fun i => ! st.used i) with _ | j1
  · rw [hf] at h
    rcases hf2 : (st.ends c).find? (fun i => ! st.used i) with _ | j2
    · rw [hf2] at h
      cases h
    · rw [hf2] at h
      cases h
      exact Or.inr ⟨rfl, List.mem_of_find?_eq_some hf2⟩
  · rw [hf] at h
    cases h
    exact Or.inl ⟨rfl, List.mem_of_find?_eq_some hf⟩

lemma pick_next_lt (segs : List Seg) (st : StState) (c j : ℕ) (b : Bool) (hwf : WFst segs st)
    (h : pick_next st c = some (j, b)) : j < segs.length := by
  rcases pick_next_mem st c j b h with ⟨_, hm⟩ | ⟨_, hm⟩
  · exact hwf.1 c j hm
  · exact hwf.2 c j hm

lemma remove_WF (segs : List Seg) (st : StState) (i : ℕ) (hwf : WFst segs st) :
    WFst segs (remove_idx segs st i) := by
  constructor
  · intro c i2 hmem
    simp only [remove_idx_starts] at hmem
    by_cases hc : c = (segs.getD i dummySeg).start
    · rw [if_pos hc] at hmem
      exact hwf.1 c i2 (List.mem_of_mem_erase hmem)
    · rw [if_neg hc] at hmem
      exact hwf.1 c i2 hmem
  · intro c i2 hmem
    simp only [remove_idx_ends] at hmem
    by_cases hc : c = (segs.getD i dummySeg).endc
    · rw [if_pos hc] at hmem
      exact hwf.2 c i2 (List.mem_of_mem_erase hmem)
    · rw [if_neg hc] at hmem
      exact hwf.2 c i2 hmem

lemma remove_used_mono (segs : List Seg) (st : StState) (i a : ℕ)
    (h : (remove_idx segs st i).used a = false) : st.used a = false := by
  rw [remove_idx_used] at h
  by_cases hai : a = i
  · subst hai
    rw [Function.update_same] at h
    cases h
  · rw [Function.update_noteq hai] at h
    exact h

lemma filter_swap_mem (p q : ℕ → Bool) (j : ℕ) :
    ∀ (L : List ℕ), L.Nodup → j ∈ L → p j = true → q j = false →
      (∀ i, i ≠ j → q i = p i) → (L.filter p).Perm (j :: L.filter q) := by
  intro L
  induction L with
  | nil =>
    intro _ hj
    simp at hj
  | cons a L2 ih =>
    intro hnd hj hpj hqj hother
    rcases List.mem_cons.mp hj with heq | hj2
    · subst heq
      rw [List.filter_cons, List.filter_cons, hpj, hqj]
      simp only [if_true, Bool.false_eq_true, if_false]
      have hfc : L2.filter p = L2.filter q := by
        apply List.filter_congr
        intro x hx
        have hxj : x ≠ j := by
          intro hxe
          exact (List.nodup_cons.mp hnd).1 (hxe ▸ hx)
        exact (hother x hxj).symm
      rw [hfc]
    · have hne : a ≠ j := by
        intro hae
        exact (List.nodup_cons.mp hnd).1 (hae ▸ hj2)
      have hrec := ih (List.nodup_cons.mp hnd).2 hj2 hpj hqj hother
      rw [List.filter_cons, List.filter_cons, hother a hne]
      cases hpa : p a
      · simp only [Bool.false_eq_true, if_false]
        exact hrec
      · simp only [if_true]
        exact (hrec.cons a).trans (List.Perm.swap j a _)

lemma unused_remove_perm (segs : List Seg) (st : StState) (j : ℕ) (hj : j < segs.length)
    (hu : st.used j = false) :
    (unusedIdx segs st).Perm (j :: unusedIdx segs (remove_idx segs st j)) := by
  unfold unusedIdx
  rw [remove_idx_used]
  apply filter_swap_mem
  · exact List.nodup_range _
  · exact List.mem_range.mpr hj
  · rw [hu]
    rfl
  · rw [Function.update_same]
    rfl
  · intro i2 hne
    rw [Function.update_noteq hne]

lemma extendF_spec (segs : List Seg) (i : ℕ) :
    ∀ (fuel : ℕ) (st : StState) (end_c : ℕ) (chain : Line), WFst segs st →
      WFst segs (extendF segs i fuel st end_c chain).st ∧
      (unusedIdx segs st).Perm
        ((extendF segs i fuel st end_c chain).consumed ++
          unusedIdx segs (extendF segs i fuel st end_c chain).st) ∧
      (∀ a, (extendF segs i fuel st end_c chain).st.used a = false → st.used a = false) := by
  intro fuel
  induction fuel with
  | zero =>
    intro st end_c chain hwf
    rw [extendF]
    exact ⟨hwf, by simp, fun a h => h⟩
  | succ fuel ih =>
    intro st end_c chain hwf
    rw [extendF]
    rcases hpick : pick_next st end_c with _ | jf
    · dsimp only
      exact ⟨hwf, by simp, fun a h => h⟩
    · obtain ⟨j, fdir⟩ := jf
      dsimp only
      by_cases hji : j = i
      · rw [if_pos hji]
        exact ⟨hwf, by simp, fun a h => h⟩
      · rw [if_neg hji]
        dsimp only
        have hu := pick_next_unused st end_c j fdir hpick
        have hjlt := pick_next_lt segs st end_c j fdir hwf hpick
        have hwf1 := remove_WF segs st j hwf
        have hperm0 := unused_remove_perm segs st j hjlt hu
        cases fdir
        · obtain ⟨hwf2, hperm2, hmono2⟩ := ih (remove_idx segs st j)
            (segs.getD j dummySeg).start
            (chain ++ (segs.getD j dummySeg).coords.reverse.drop 1) hwf1
          simp only [Bool.false_eq_true, if_false]
          exact ⟨hwf2, hperm0.trans (hperm2.cons j),
            fun a h => remove_used_mono segs st j a (hmono2 a h)⟩
        · obtain ⟨hwf2, hperm2, hmono2⟩ := ih (remove_idx segs st j)
            (segs.getD j dummySeg).endc
            (chain ++ (segs.getD j dummySeg).coords.drop 1) hwf1
          simp only [if_true]
          exact ⟨hwf2, hperm0.trans (hperm2.cons j),
            fun a h => remove_used_mono segs st j a (hmono2 a h)⟩

lemma extendB_spec (segs : List Seg) (i : ℕ) :
    ∀ (fuel : ℕ) (st : StState) (start_c : ℕ) (chain : Line), WFst segs st →
      WFst segs (extendB segs i fuel st start_c chain).st ∧
      (unusedIdx segs st).Perm
        ((extendB segs i fuel st start_c chain).consumed ++
          unusedIdx segs (extendB segs i fuel st start_c chain).st) ∧
      (∀ a, (extendB segs i fuel st start_c chain).st.used a = false → st.used a = false) := by
  intro fuel
  induction fuel with
  | zero =>
    intro st start_c chain hwf
    rw [extendB]
    exact ⟨hwf, by simp, fun a h => h⟩
  | succ fuel ih =>
    intro st start_c chain hwf
    rw [extendB]
    rcases hpick : pick_next st start_c with _ | jf
    · dsimp only
      exact ⟨hwf, by simp, fun a h => h⟩
    · obtain ⟨j, fdir⟩ := jf
      dsimp only
      by_cases hji : j = i
      · rw [if_pos hji]
        exact ⟨hwf, by simp, fun a h => h⟩
      · rw [if_neg hji]
        dsimp only
        have hu := pick_next_unused st start_c j fdir hpick
        have hjlt := pick_next_lt segs st start_c j fdir hwf hpick
        have hwf1 := remove_WF segs st j hwf
        have hperm0 := unused_remove_perm segs st j hjlt hu
        cases fdir
        · obtain ⟨hwf2, hperm2, hmono2⟩ := ih (remove_idx segs st j)
            (segs.getD j dummySeg).start
            ((segs.getD j dummySeg).coords.dropLast ++ chain) hwf1
          simp only [Bool.false_eq_true, if_false]
          exact ⟨hwf2, hperm0.trans (hperm2.cons j),
            fun a h => remove_used_mono segs st j a (hmono2 a h)⟩
        · obtain ⟨hwf2, hperm2, hmono2⟩ := ih (remove_idx segs st j)
            (segs.getD j dummySeg).endc
            ((segs.getD j dummySeg).coords.reverse.dropLast ++ chain) hwf1
          simp only [if_true]
          exact ⟨hwf2, hperm0.trans (hperm2.cons j),
            fun a h => remove_used_mono segs st j a (hmono2 a h)⟩

lemma stitchGo_perm (segs : List Seg) :
    ∀ (rest : List ℕ) (st : StState), WFst segs st → (∀ a ∈ rest, a < segs.length) →
      (∀ a ∈ unusedIdx segs st, a ∈ rest) →
      (((stitchGo segs st rest).map Prod.snd).flatten).Perm (unusedIdx segs st) := by
  intro rest
  induction rest with
  | nil =>
    intro st _ _ hsub
    have hnil : unusedIdx segs st = [] := List.eq_nil_iff_forall_not_mem.mpr
      (fun a ha => by simpa using hsub a ha)
    rw [stitchGo, hnil]
    simp
  | cons i rest ih =>
    intro st hwf hrange hsub
    rw [stitchGo]
    by_cases hui : st.used i
    · rw [if_pos hui]
      apply ih st hwf (fun a ha => hrange a (List.mem_cons_of_mem _ ha))
      intro a ha
      rcases List.mem_cons.mp (hsub a ha) with heq | hmem
      · exfalso
        have hm := (mem_unusedIdx segs st a).mp ha
        rw [heq] at hm
        rw [hm.2] at hui
        cases hui
      · exact hmem
    · rw [if_neg hui]
      dsimp only
      have hilt : i < segs.length := hrange i (List.mem_cons_self _ _)
      have hiu : st.used i = false := by simpa using hui
      have hwf1 := remove_WF segs st i hwf
      have hperm0 := unused_remove_perm segs st i hilt hiu
      set rf := extendF segs i segs.length (remove_idx segs st i) (segs.getD i dummySeg).endc
        (segs.getD i dummySeg).coords with hrf
      set rb := extendB segs i segs.length rf.st (segs.getD i dummySeg).start rf.chain with hrb
      obtain ⟨hwf2, hperm2, hmono2⟩ := extendF_spec segs i segs.length (remove_idx segs st i)
        (segs.getD i dummySeg).endc (segs.getD i dummySeg).coords hwf1
      rw [← hrf] at hwf2 hperm2 hmono2
      obtain ⟨hwf3, hperm3, hmono3⟩ := extendB_spec segs i segs.length rf.st
        (segs.getD i dummySeg).start rf.chain hwf2
      rw [← hrb] at hwf3 hperm3 hmono3
      have hjoin := ih rb.st hwf3 (fun a ha => hrange a (List.mem_cons_of_mem _ ha)) (by
        intro a ha
        obtain ⟨halt, hau⟩ := (mem_unusedIdx segs rb.st a).mp ha
        have hau1 : (remove_idx segs st i).used a = false := hmono2 a (hmono3 a hau)
        have hau0 : st.used a = false := remove_used_mono segs st i a hau1
        have hai : a ≠ i := by
          intro hae
          subst hae
          rw [remove_idx_used, Function.update_same] at hau1
          cases hau1
        rcases List.mem_cons.mp (hsub a ((mem_unusedIdx segs st a).mpr ⟨halt, hau0⟩)) with
          heq | hmem
        · exact absurd heq hai
        · exact hmem)
      simp only [List.map_cons, List.flatten_cons]
      rw [List.cons_append, List.append_assoc]
      have hstep : (rf.consumed ++ (rb.consumed ++
          ((stitchGo segs rb.st rest).map Prod.snd).flatten)).Perm
          (rf.consumed ++ (rb.consumed ++ unusedIdx segs rb.st)) :=
        List.Perm.append_left _ (List.Perm.append_left _ hjoin)
      have h1 : (unusedIdx segs st).Perm
          (i :: (rf.consumed ++ (rb.consumed ++ unusedIdx segs rb.st))) :=
        hperm0.trans ((hperm2.trans (List.Perm.append_left _ hperm3)).cons i)
      exact (hstep.cons i).trans h1.symm

lemma initStitch_WF (segs : List Seg) : WFst segs (initStitch segs) := by
  constructor
  · intro c i hmem
    have := List.mem_filter.mp hmem
    exact List.mem_range.mp this.1
  · intro c i hmem
    have := List.mem_filter.mp hmem
    exact List.mem_range.mp this.1

lemma initStitch_unused (segs : List Seg) :
    unusedIdx segs (initStitch segs) = List.range segs.length := by
  unfold unusedIdx initStitch
  simp

lemma buildSegs_length (fwd inv : LonLat → LonLat) :
    ∀ (lines : List Line) (st : CState), (∀ l ∈ lines, 2 ≤ l.length) →
      (buildSegs fwd inv st lines).2.length = lines.length := by
  intro lines
  induction lines with
  | nil =>
    intro st _
    rfl
  | cons line rest ih =>
    intro st hall
    have h2 := hall line (List.mem_cons_self _ _)
    have hlen : ¬ line.length < 2 := by omega
    rw [buildSegs, if_neg hlen]
    simp only [List.length_cons]
    rw [ih _ (fun l hl => hall l (List.mem_cons_of_mem _ hl))]

/-- C1: the stitcher consumes every segment exactly once — the segment indices
consumed across all emitted chains form a permutation of all segment indices
(so no segment's coordinates enter two chains or twice into one), and with
every input line having at least 2 points, the number of segments equals the
number of input lines. -/
theorem stitch_segment_conservation (fwd inv : LonLat → LonLat) (lines : List Line)
    (snap_tol_m : ℚ) :
    (((stitchChains fwd inv lines snap_tol_m).map Prod.snd).flatten).Perm
      (List.range (stitchSegs fwd inv lines snap_tol_m).length) ∧
    ((∀ l ∈ lines, 2 ≤ l.length) →
      (stitchSegs fwd inv lines snap_tol_m).length = lines.length) := by
  constructor
  · rw [stitchChains]
    have hperm := stitchGo_perm (stitchSegs fwd inv lines snap_tol_m)
      (List.range (stitchSegs fwd inv lines snap_tol_m).length)
      (initStitch (stitchSegs fwd inv lines snap_tol_m))
      (initStitch_WF _) (fun a ha => List.mem_range.mp ha)
      (by rw [initStitch_unused]; exact fun a ha => ha)
    rw [initStitch_unused] at hperm
    exact hperm
  · intro hall
    exact buildSegs_length fwd inv lines (initC snap_tol_m) hall

/-- Witness for C1 at a concrete two-line input. -/
theorem stitch_segment_conservation_witness :
    (∀ l ∈ ([[(0, 0), (10, 0)], [(0, 0), (20, 0)]] : List Line), 2 ≤ l.length) ∧
    (stitchSegs (fun p => p) (fun p => p) [[(0, 0), (10, 0)], [(0, 0), (20, 0)]] 1).length =
      ([[(0, 0), (10, 0)], [(0, 0), (20, 0)]] : List Line).length :=
  ⟨by decide,
    (stitch_segment_conservation (fun p => p) (fun p => p)
      [[(0, 0), (10, 0)], [(0, 0), (20, 0)]] 1).2 (by decide)⟩

lemma extendF_done (segs : List Seg) (i : ℕ) :
    ∀ (fuel : ℕ) (st : StState) (e : ℕ) (ch : Line), WFst segs st →
      (unusedIdx segs st).length < fuel → (extendF segs i fuel st e ch).done = true := by
  intro fuel
  induction fuel with
  | zero =>
    intro st e ch _ hlt
    omega
  | succ fuel ih =>
    intro st e ch hwf hlt
    rw [extendF]
    rcases hpick : pick_next st e with _ | jf
    · rfl
    · obtain ⟨j, fdir⟩ := jf
      dsimp only
      by_cases hji : j = i
      · rw [if_pos hji]
      · rw [if_neg hji]
        dsimp only
        have hu := pick_next_unused st e j fdir hpick
        have hjlt := pick_next_lt segs st e j fdir hwf hpick
        have hperm0 := unused_remove_perm segs st j hjlt hu
        have hlen : (unusedIdx segs st).length =
            (unusedIdx segs (remove_idx segs st j)).length + 1 := by
          rw [hperm0.length_eq]
          rfl
        have hlt2 : (unusedIdx segs (remove_idx segs st j)).length < fuel := by omega
        have hwf1 := remove_WF segs st j hwf
        cases fdir
        · simp only [Bool.false_eq_true, if_false]
          exact ih _ _ _ hwf1 hlt2
        · simp only [if_true]
          exact ih _ _ _ hwf1 hlt2

lemma extendB_done (segs : List Seg) (i : ℕ) :
    ∀ (fuel : ℕ) (st : StState) (c : ℕ) (ch : Line), WFst segs st →
      (unusedIdx segs st).length < fuel → (extendB segs i fuel st c ch).done = true := by
  intro fuel
  induction fuel with
  | zero =>
    intro st c ch _ hlt
    omega
  | succ fuel ih =>
    intro st c ch hwf hlt
    rw [extendB]
    rcases hpick : pick_next st c with _ | jf
    · rfl
    · obtain ⟨j, fdir⟩ := jf
      dsimp only
      by_cases hji : j = i
      · rw [if_pos hji]
      · rw [if_neg hji]
        dsimp only
        have hu := pick_next_unused st c j fdir hpick
        have hjlt := pick_next_lt segs st c j fdir hwf hpick
        have hperm0 := unused_remove_perm segs st j hjlt hu
        have hlen : (unusedIdx segs st).length =
            (unusedIdx segs (remove_idx segs st j)).length + 1 := by
          rw [hperm0.length_eq]
          rfl
        have hlt2 : (unusedIdx segs (remove_idx segs st j)).length < fuel := by omega
        have hwf1 := remove_WF segs st j hwf
        cases fdir
        · simp only [Bool.false_eq_true, if_false]
          exact ih _ _ _ hwf1 hlt2
        · simp only [if_true]
          exact ih _ _ _ hwf1 hlt2

/-- C9: the stitcher terminates — pick_next only returns unused segments,
marking the picked segment used strictly shrinks the unused pool, and with
fuel exceeding the unused count both extension loops reach their own exit
condition (done) rather than running out of fuel. -/
theorem stitcher_terminates :
    (∀ (st : StState) (c j : ℕ) (b : Bool), pick_next st c = some (j, b) →
      st.used j = false) ∧
    (∀ (segs : List Seg) (st : StState) (c j : ℕ) (b : Bool), WFst segs st →
      pick_next st c = some (j, b) →
      (unusedIdx segs (remove_idx segs st j)).length < (unusedIdx segs st).length) ∧
    (∀ (segs : List Seg) (i fuel : ℕ) (st : StState) (e : ℕ) (ch : Line), WFst segs st →
      (unusedIdx segs st).length < fuel →
      (extendF segs i fuel st e ch).done = true ∧ (extendB segs i fuel st e ch).done = true) := by
  refine ⟨pick_next_unused, ?_, ?_⟩
  · intro segs st c j b hwf hpick
    have hu := pick_next_unused st c j b hpick
    have hjlt := pick_next_lt segs st c j b hwf hpick
    have hperm := unused_remove_perm segs st j hjlt hu
    rw [hperm.length_eq]
    simp
  · intro segs i fuel st e ch hwf hlt
    exact ⟨extendF_done segs i fuel st e ch hwf hlt, extendB_done segs i fuel st e ch hwf hlt⟩

/-- Witness for C9 at a concrete state: one unused segment, fuel 2. -/
theorem stitcher_terminates_witness :
    WFst [⟨[(0, 0), (1, 0)], 0, 1⟩] (initStitch [⟨[(0, 0), (1, 0)], 0, 1⟩]) ∧
    (unusedIdx [⟨[(0, 0), (1, 0)], 0, 1⟩] (initStitch [⟨[(0, 0), (1, 0)], 0, 1⟩])).length < 2 ∧
    (extendF [⟨[(0, 0), (1, 0)], 0, 1⟩] 0 2 (initStitch [⟨[(0, 0), (1, 0)], 0, 1⟩]) 1
      [(0, 0), (1, 0)]).done = true := by
  have hwf := initStitch_WF [⟨[((0 : ℚ), (0 : ℚ)), (1, 0)], 0, 1⟩]
  have hlt : (unusedIdx [⟨[((0 : ℚ), (0 : ℚ)), (1, 0)], 0, 1⟩]
      (initStitch [⟨[((0 : ℚ), (0 : ℚ)), (1, 0)], 0, 1⟩])).length < 2 := by
    rw [initStitch_unused]
    decide
  exact ⟨hwf, hlt,
    (stitcher_terminates.2.2 [⟨[(0, 0), (1, 0)], 0, 1⟩] 0 2
      (initStitch [⟨[(0, 0), (1, 0)], 0, 1⟩]) 1 [(0, 0), (1, 0)] hwf hlt).1⟩

/-- C3 as amended: pick_next prefers a start-match in the backward loop too —
when any unused segment whose start cluster equals the chain's current start
cluster exists, pick_next returns such a segment with flag true (even when an
unused end-match also exists), and the backward loop then prepends that
segment reversed, moving the chain start to the segment's end cluster. -/
theorem backward_prefers_start_match :
    (∀ (st : StState) (c : ℕ), (∃ j ∈ st.starts c, st.used j = false) →
      ∃ j, pick_next st c = some (j, true) ∧ j ∈ st.starts c ∧ st.used j = false) ∧
    (∀ (segs : List Seg) (i fuel : ℕ) (st : StState) (c : ℕ) (chain : Line) (j : ℕ),
      pick_next st c = some (j, true) → j ≠ i →
      (extendB segs i (fuel + 1) st c chain).chain =
        (extendB segs i fuel (remove_idx segs st j) (segs.getD j dummySeg).endc
          ((segs.getD j dummySeg).coords.reverse.dropLast ++ chain)).chain ∧
      (extendB segs i (fuel + 1) st c chain).consumed =
        j :: (extendB segs i fuel (remove_idx segs st j) (segs.getD j dummySeg).endc
          ((segs.getD j dummySeg).coords.reverse.dropLast ++ chain)).consumed) := by
  constructor
  · intro st c hex
    obtain ⟨j0, hj0, hu0⟩ := hex
    rcases hf : (st.starts c).find? (fun i => ! st.used i) with _ | j
    · exfalso
      have := List.find?_eq_none.mp hf j0 hj0
      rw [hu0] at this
      simp at this
    · refine ⟨j, ?_, List.mem_of_find?_eq_some hf, by simpa using List.find?_some hf⟩
      rw [pick_next, hf]
  · intro segs i fuel st c chain j hpick hji
    rw [extendB, hpick]
    dsimp only
    rw [if_neg hji]
    dsimp only
    exact ⟨rfl, rfl⟩

/-- Witness for C3 (amended) at a concrete state. -/
theorem backward_prefers_start_match_witness :
    (∃ j ∈ (initStitch [⟨[((0 : ℚ), (0 : ℚ)), (1, 0)], 5, 6⟩]).starts 5,
      (initStitch [⟨[((0 : ℚ), (0 : ℚ)), (1, 0)], 5, 6⟩]).used j = false) ∧
    ∃ j, pick_next (initStitch [⟨[((0 : ℚ), (0 : ℚ)), (1, 0)], 5, 6⟩]) 5 = some (j, true) ∧
      j ∈ (initStitch [⟨[((0 : ℚ), (0 : ℚ)), (1, 0)], 5, 6⟩]).starts 5 ∧
      (initStitch [⟨[((0 : ℚ), (0 : ℚ)), (1, 0)], 5, 6⟩]).used j = false := by
  have hex : ∃ j ∈ (initStitch [⟨[((0 : ℚ), (0 : ℚ)), (1, 0)], 5, 6⟩]).starts 5,
      (initStitch [⟨[((0 : ℚ), (0 : ℚ)), (1, 0)], 5, 6⟩]).used j = false := by
    refine ⟨0, ?_, rfl⟩
    with_unfolding_all decide
  exact ⟨hex, backward_prefers_start_match.1 _ 5 hex⟩

/-- C3 counterexample: on the concrete three-line input below (identity
projection, snap tolerance 1), at the backward-extension state for the first
chain both an unused start-match (segment 1) and an unused end-match
(segment 2) exist at cluster 0, yet pick_next returns the start-match
(1, true) — the end-matching segment is not preferred; the full run output
shows segment 1 prepended reversed. -/
theorem backward_prefers_start_match_cex :
    (1 ∈ (remove_idx (stitchSegs (fun p => p) (fun p => p)
        [[(0, 0), (10, 0)], [(0, 0), (-10, 0)], [(-20, 0), (0, 0)]] 1)
        (initStitch (stitchSegs (fun p => p) (fun p => p)
          [[(0, 0), (10, 0)], [(0, 0), (-10, 0)], [(-20, 0), (0, 0)]] 1)) 0).starts 0 ∧
      (remove_idx (stitchSegs (fun p => p) (fun p => p)
        [[(0, 0), (10, 0)], [(0, 0), (-10, 0)], [(-20, 0), (0, 0)]] 1)
        (initStitch (stitchSegs (fun p => p) (fun p => p)
          [[(0, 0), (10, 0)], [(0, 0), (-10, 0)], [(-20, 0), (0, 0)]] 1)) 0).used 1 = false) ∧
    (2 ∈ (remove_idx (stitchSegs (fun p => p) (fun p => p)
        [[(0, 0), (10, 0)], [(0, 0), (-10, 0)], [(-20, 0), (0, 0)]] 1)
        (initStitch (stitchSegs (fun p => p) (fun p => p)
          [[(0, 0), (10, 0)], [(0, 0), (-10, 0)], [(-20, 0), (0, 0)]] 1)) 0).ends 0 ∧
      (remove_idx (stitchSegs (fun p => p) (fun p => p)
        [[(0, 0), (10, 0)], [(0, 0), (-10, 0)], [(-20, 0), (0, 0)]] 1)
        (initStitch (stitchSegs (fun p => p) (fun p => p)
          [[(0, 0), (10, 0)], [(0, 0), (-10, 0)], [(-20, 0), (0, 0)]] 1)) 0).used 2 = false) ∧
    pick_next (remove_idx (stitchSegs (fun p => p) (fun p => p)
        [[(0, 0), (10, 0)], [(0, 0), (-10, 0)], [(-20, 0), (0, 0)]] 1)
        (initStitch (stitchSegs (fun p => p) (fun p => p)
          [[(0, 0), (10, 0)], [(0, 0), (-10, 0)], [(-20, 0), (0, 0)]] 1)) 0) 0 =
      some (1, true) ∧
    stitch_lines (fun p => p) (fun p => p)
        [[(0, 0), (10, 0)], [(0, 0), (-10, 0)], [(-20, 0), (0, 0)]] 1 =
      [[(-10, 0), (0, 0), (10, 0)], [(-20, 0), (0, 0)]] := by
  refine ⟨⟨?_, ?_⟩, ⟨?_, ?_⟩, ?_, ?_⟩ <;> with_unfolding_all decide

/-- Witness for C4 (amended) on a chain of ten 100 m edges along the x axis. -/
theorem splitter_1000_400_witness :
    (2 ≤ ((List.range 11).map (fun i => ((i : ℚ) * 100, (0 : ℚ)))).length ∧
      edgesLE (fun p q => |q.1 - p.1|) 400
        ((List.range 11).map (fun i => ((i : ℚ) * 100, (0 : ℚ)))) ∧
      chunkLen (fun p q => |q.1 - p.1|)
        ((List.range 11).map (fun i => ((i : ℚ) * 100, (0 : ℚ)))) = 1000) ∧
    3 ≤ (split_line_max_length_meters (fun p q => |q.1 - p.1|)
        ((List.range 11).map (fun i => ((i : ℚ) * 100, (0 : ℚ)))) 400).length := by
  have h1 : 2 ≤ ((List.range 11).map (fun i => ((i : ℚ) * 100, (0 : ℚ)))).length := by
    with_unfolding_all decide
  have h2 : edgesLE (fun p q => |q.1 - p.1|) 400
      ((List.range 11).map (fun i => ((i : ℚ) * 100, (0 : ℚ)))) := by
    with_unfolding_all decide
  have h3 : chunkLen (fun p q => |q.1 - p.1|)
      ((List.range 11).map (fun i => ((i : ℚ) * 100, (0 : ℚ)))) = 1000 := by
    with_unfolding_all decide
  exact ⟨⟨h1, h2, h3⟩, (splitter_1000_400 (fun p q => |q.1 - p.1|) _ h1 h2 h3).1⟩

end Coastline
